import Mathlib

/-!
Verification development for a small in-memory TF-IDF line search engine
(`SearchEngine` in `search.cpp`). The engine splits a text into non-empty
lines, tokenizes each line into maximal alphabetic runs, builds a
vocabulary ordered by a case-insensitive comparator, computes per-line
term frequencies and per-word inverse document frequencies, and answers
queries by ranking lines by summed relevance.

Modelling conventions: strings are `List Char`; `double` arithmetic is
modelled exactly, with term frequencies as `ℚ` and log-weighted scores as
`ℝ` (`std::log` becomes `Real.log`); `std::vector` subscripts are
modelled by `List.getD` with default `0`, which totalizes the source's
out-of-range reads (see `words_relevance_in_lines_`); `std::sort` over
reverse iterators is modelled by a stable insertion sort of the reversed
sequence.
-/

namespace SearchEngine

/-- ASCII alphabetic test, as `std::isalpha` behaves in the C locale. -/
def isAlpha (c : Char) : Bool :=
  ( 'a' ≤ c && c ≤ 'z') || ( 'A' ≤ c && c ≤ 'Z')

/-- ASCII lowercase folding, as `std::tolower` behaves in the C locale. -/
def toLower (c : Char) : Char :=
  if 'A' ≤ c && c ≤ 'Z' then Char.ofNat (c.toNat + 32) else c

/-- The case-folded code of a character, the value `Comp` compares. -/
def lc (c : Char) : Nat := (toLower c).toNat

/-- The comparator `Comp::operator()`: case-insensitive lexicographic strict comparison of two
words; the first case-folded difference decides, and on a full common prefix
the shorter word sorts first. -/
def compLt : List Char → List Char → Bool
  | _, [] => false
  | [], _ :: _ => true
  | a :: as, b :: bs =>
    if lc a < lc b then true
    else if lc b < lc a then false
    else compLt as bs

/-- Equivalence under `Comp`: neither word compares less than the other. The
ordered containers treat two such words as the same key. -/
def compEquiv (a b : List Char) : Bool := !compLt a b && !compLt b a

/-- Insertion as by `std::set<std::string_view, Comp>::insert` into the strictly ascending key
list: a word equivalent to an existing key is not inserted, so the first-seen
casing of a word stays the canonical key. -/
def setInsert (w : List Char) : List (List Char) → List (List Char)
  | [] => [w]
  | x :: xs =>
    if compLt w x then w :: x :: xs
    else if compLt x w then x :: setInsert w xs
    else x :: xs

/-- Scanning loop shared by `GetWordsFromStringView` and
`GetUniqueWordsFromStringView`: `acc` holds, reversed, the alphabetic run being
read; a non-alphabetic character ends the run. -/
def splitWordsAux : List Char → List Char → List (List Char)
  | [], acc => if acc = [] then [] else [acc.reverse]
  | c :: cs, acc =>
    if isAlpha c then splitWordsAux cs (c :: acc)
    else if acc = [] then splitWordsAux cs []
    else acc.reverse :: splitWordsAux cs []

/-- The function `SearchEngine::GetWordsFromStringView`: the maximal runs of alphabetic
characters of a string, in order of appearance, duplicates kept. -/
def GetWordsFromStringView (s : List Char) : List (List Char) := splitWordsAux s []

/-- The function `SearchEngine::GetUniqueWordsFromStringView`: the same scan, but each word is
inserted into the `Comp`-ordered set; the result is the strictly ascending list
of canonical (first-seen) spellings. -/
def GetUniqueWordsFromStringView (s : List Char) : List (List Char) :=
  (GetWordsFromStringView s).foldl (fun acc w => setInsert w acc) []

/-- Scanning loop of `GetLinesFromText` for a non-empty text: `acc` holds,
reversed, the characters of the line being read; a newline ends the line, and
an empty segment between newlines is dropped. -/
def linesAux : List Char → List Char → List (List Char)
  | [], acc => if acc = [] then [] else [acc.reverse]
  | c :: cs, acc =>
    if c = '\n' then
      if acc = [] then linesAux cs [] else acc.reverse :: linesAux cs []
    else linesAux cs (c :: acc)

/-- The function `SearchEngine::GetLinesFromText`: split at newline characters, dropping
empty segments. The source's do-while runs its body once even on empty input:
there `find` returns `npos` with the cursor at 0 and `substr(0)` pushes the
empty view, so the empty text yields one empty line. -/
def GetLinesFromText (text : List Char) : List (List Char) :=
  if text = [] then [[]] else linesAux text []

/-- The function `SearchEngine::GetTFOfWordsInLine`, read off for one keyword `w`: each token
of the line is counted toward the canonical key `keywords.find` returns (the
unique key `Comp`-equivalent to the token — the keyword set holds at most one
key per equivalence class), then every count is divided by the line's token
count. -/
def GetTFOfWordsInLine (wordsInLine : List (List Char)) (w : List Char) : ℚ :=
  (wordsInLine.countP (fun t => compEquiv t w) : ℚ) / (wordsInLine.length : ℚ)

/-- The `lines_` member after `BuildIndex text`. -/
def lines_ (text : List Char) : List (List Char) := GetLinesFromText text

/-- The `text_words_` member after `BuildIndex text`. -/
def text_words_ (text : List Char) : List (List Char) := GetUniqueWordsFromStringView text

/-- The `words_in_lines` vector of `BuildIndex`: the token list of each line. -/
def wordsInLines (text : List Char) : List (List (List Char)) :=
  (lines_ text).map GetWordsFromStringView

/-- Membership in `ignore_list_`: line `i` has no alphabetic token. -/
def ignoredB (text : List Char) (i : Nat) : Bool :=
  ((wordsInLines text).getD i []).isEmpty

/-- The global positions of the lines neither `BuildIndex` nor `Search` skips,
in ascending order. -/
def nonIgnoredPositions (text : List Char) : List Nat :=
  (List.range (lines_ text).length).filter (fun i => !(ignoredB text i))

/-- The vector `word_tf_in_line[w]` after the first loop of `BuildIndex`: one TF entry per
non-ignored line, in line order — ignored lines contribute no slot. -/
def word_tf_in_line (text : List Char) (w : List Char) : List ℚ :=
  (nonIgnoredPositions text).map
    (fun i => GetTFOfWordsInLine ((wordsInLines text).getD i []) w)

/-- The counter `word_idf[w]` before the log transform: the document-frequency counter,
incremented once per non-ignored line whose TF for `w` is non-zero. -/
def word_idf_count (text : List Char) (w : List Char) : Nat :=
  ((nonIgnoredPositions text).map (fun i => (wordsInLines text).getD i [])).countP
    (fun ws => GetTFOfWordsInLine ws w ≠ 0)

/-- The value `word_idf[w]` after the log transform: `log(lines_.size() / df)` when the
counter is non-zero, otherwise the counter's own value 0. -/
noncomputable def word_idf (text : List Char) (w : List Char) : ℝ :=
  if word_idf_count text w ≠ 0 then
    Real.log (((lines_ text).length : ℝ) / (word_idf_count text w : ℝ))
  else 0

/-- The vector `words_relevance_in_lines_[w]`: the second loop of `BuildIndex` appends, for
every non-ignored global line position `i`, `word_tf_in_line[w][i] * word_idf[w]`.
The vector `word_tf_in_line[w]` holds one slot per non-ignored line but is
subscripted by the global position `i`, so the source's read is misaligned, and
out of range, whenever an ignored line precedes a non-ignored one; the read is
modelled totally by `getD` with default `0`. -/
noncomputable def words_relevance_in_lines_ (text : List Char) (w : List Char) : List ℝ :=
  (nonIgnoredPositions text).map
    (fun i => ((word_tf_in_line text w).getD i 0 : ℝ) * word_idf text w)

/-- The `ERROR` tolerance of `Search`'s comparator. -/
noncomputable def ERROR : ℝ := 1 / 1000000000

/-- The score `Search` accumulates for line `i`: `words_relevance_in_lines_` is a
`std::unordered_map` whose `find` uses case-sensitive key equality, so only a
query word that is literally one of the canonical vocabulary keys contributes;
the per-line subscript is again the global position `i` of a vector with one
slot per non-ignored line, modelled totally by `getD`. -/
noncomputable def lineScore (text : List Char) (queryWords : List (List Char)) (i : Nat) : ℝ :=
  (queryWords.map (fun w =>
    if w ∈ text_words_ text then (words_relevance_in_lines_ text w).getD i 0 else 0)).sum

/-- The `lines_relevance` vector of `Search`: one (relevance, position) record
per non-ignored line, in ascending position order. -/
noncomputable def lines_relevance (text : List Char) (queryWords : List (List Char)) :
    List (ℝ × Nat) :=
  (nonIgnoredPositions text).map (fun i => (lineScore text queryWords i, i))

/-- The comparator passed to `std::sort` in `Search`: scores within `ERROR` of
each other tie and are ordered by descending position (which, read through the
reverse iterators, is ascending position), otherwise by score. -/
noncomputable def cmpRelevance (lhs rhs : ℝ × Nat) : Prop :=
  if |lhs.1 - rhs.1| < ERROR then rhs.2 < lhs.2 else lhs.1 < rhs.1

noncomputable instance : DecidableRel cmpRelevance := fun _ _ => by
  unfold cmpRelevance; infer_instance

/-- The call `std::sort(lines_relevance.rbegin(), lines_relevance.rend(), cmp)`: the
reversed sequence is sorted ascending by the comparator, then read back
forward. `std::sort` leaves the order of comparator-equivalent records
unspecified; the model fixes it with a stable insertion sort. -/
noncomputable def sortedRelevance (text : List Char) (queryWords : List (List Char)) :
    List (ℝ × Nat) :=
  (List.insertionSort cmpRelevance (lines_relevance text queryWords).reverse).reverse

/-- The output loop of `Search`: emit positions in ranked order until
`results_count` entries are out or a record with relevance exactly 0 is met. -/
noncomputable def takeResults : Nat → List (ℝ × Nat) → List Nat
  | _, [] => []
  | 0, _ => []
  | k + 1, x :: xs => if x.1 = 0 then [] else x.2 :: takeResults k xs

/-- The function `SearchEngine::Search`. -/
noncomputable def Search (text query : List Char) (resultsCount : Nat) : List (List Char) :=
  if resultsCount = 0 ∨ lines_ text = [] then []
  else
    (takeResults resultsCount (sortedRelevance text (GetUniqueWordsFromStringView query))).map
      (fun p => (lines_ text).getD p [])

/-- Concrete text for the case-sensitivity divergence. -/
def exText1 : List Char := "apple pie\nbanana split".toList

/-- Concrete text for the compacted-index misalignment: its first line has no
alphabetic token. -/
def exText2 : List Char := "123\ncat dog".toList

/-- Concrete text of the spec's ranking example. -/
def exText3 : List Char := "cat sat\ndog ran\ncat cat cat".toList

/-! ### Basic theory of the comparator `Comp` -/

/-- The case-folded key of a word: `Comp` compares exactly these sequences. -/
def lkey (a : List Char) : List Nat := a.map lc

theorem compLt_nil_right (a : List Char) : compLt a [] = false := by
  cases a <;> rfl

theorem compEquiv_iff_lkey (a b : List Char) : compEquiv a b = true ↔ lkey a = lkey b := by
  induction a generalizing b with
  | nil =>
    cases b with
    | nil => simp [compEquiv, compLt, lkey]
    | cons x xs => simp [compEquiv, compLt, lkey]
  | cons c cs ih =>
    cases b with
    | nil => simp [compEquiv, compLt, lkey]
    | cons x xs =>
      by_cases h1 : lc c < lc x
      · simp only [compEquiv, compLt, h1, if_true, Bool.not_true, Bool.false_and, lkey,
          List.map_cons]
        constructor
        · intro h; cases h
        · intro h
          have : lc c = lc x := by injection h
          omega
      · by_cases h2 : lc x < lc c
        · simp only [compEquiv, compLt, h1, h2, if_true, if_false, Bool.not_true, Bool.not_false,
            Bool.and_false, lkey, List.map_cons]
          constructor
          · intro h; cases h
          · intro h
            have : lc c = lc x := by injection h
            omega
        · have hcx : lc c = lc x := by omega
          simp only [compEquiv, compLt, hcx, lt_self_iff_false, if_false, lkey, List.map_cons,
            List.cons.injEq, true_and]
          simpa [compEquiv, lkey] using ih xs

theorem compEquiv_refl (a : List Char) : compEquiv a a = true :=
  (compEquiv_iff_lkey a a).mpr rfl

theorem compLt_of_equiv_false (a b : List Char) (h : compEquiv a b = true) :
    compLt a b = false ∧ compLt b a = false := by
  unfold compEquiv at h
  constructor
  · cases hab : compLt a b <;> simp [hab] at h ⊢
  · cases hba : compLt b a <;> simp [hba] at h ⊢

theorem compLt_trans {a b c : List Char} (h1 : compLt a b = true) (h2 : compLt b c = true) :
    compLt a c = true := by
  induction a generalizing b c with
  | nil =>
    cases c with
    | nil => rw [compLt_nil_right] at h2; cases h2
    | cons f fs => rfl
  | cons d ds ih =>
    cases b with
    | nil => rw [compLt_nil_right] at h1; cases h1
    | cons e es =>
      cases c with
      | nil => rw [compLt_nil_right] at h2; cases h2
      | cons f fs =>
        simp only [compLt] at h1 h2 ⊢
        by_cases hde : lc d < lc e
        · by_cases hef : lc e < lc f
          · simp [show lc d < lc f by omega]
          · by_cases hfe : lc f < lc e
            · simp [hef, hfe] at h2
            · simp [show lc d < lc f by omega]
        · by_cases hed : lc e < lc d
          · simp [hde, hed] at h1
          · by_cases hef : lc e < lc f
            · simp [show lc d < lc f by omega]
            · by_cases hfe : lc f < lc e
              · simp [hef, hfe] at h2
              · have : ¬ lc d < lc f := by omega
                have : ¬ lc f < lc d := by omega
                simp [hde, hed] at h1
                simp [hef, hfe] at h2
                simp [*]
                exact ih h1 h2

/-! ### Theory of `setInsert` (std::set insertion) -/

/-- The key list of an ordered set: strictly ascending under `Comp`. -/
def sortedKeys (l : List (List Char)) : Prop := l.Pairwise (fun a b => compLt a b = true)

theorem mem_of_mem_setInsert {x w : List Char} {l : List (List Char)}
    (h : x ∈ setInsert w l) : x = w ∨ x ∈ l := by
  induction l with
  | nil => simpa [setInsert] using h
  | cons y ys ih =>
    unfold setInsert at h
    split at h
    · simpa using h
    · split at h
      · rcases List.mem_cons.mp h with h | h
        · right; exact List.mem_cons.mpr (Or.inl h)
        · rcases ih h with h | h
          · left; exact h
          · right; exact List.mem_cons.mpr (Or.inr h)
      · right; exact h

theorem mem_setInsert_of_mem {x w : List Char} {l : List (List Char)}
    (h : x ∈ l) : x ∈ setInsert w l := by
  induction l with
  | nil => cases h
  | cons y ys ih =>
    unfold setInsert
    split
    · exact List.mem_cons.mpr (Or.inr h)
    · split
      · rcases List.mem_cons.mp h with h | h
        · exact List.mem_cons.mpr (Or.inl h)
        · exact List.mem_cons.mpr (Or.inr (ih h))
      · exact h

theorem setInsert_covers (w : List Char) (l : List (List Char)) :
    ∃ u ∈ setInsert w l, compEquiv w u = true := by
  induction l with
  | nil => exact ⟨w, by simp [setInsert], compEquiv_refl w⟩
  | cons y ys ih =>
    unfold setInsert
    split
    · exact ⟨w, by simp, compEquiv_refl w⟩
    · split
      · obtain ⟨u, hu, he⟩ := ih
        exact ⟨u, List.mem_cons.mpr (Or.inr hu), he⟩
      · refine ⟨y, List.mem_cons.mpr (Or.inl rfl), ?_⟩
        rename_i h1 h2
        unfold compEquiv
        simp only [Bool.and_eq_true, Bool.not_eq_true']
        exact ⟨Bool.not_eq_true _ ▸ Bool.of_not_eq_true h1, Bool.of_not_eq_true h2⟩

theorem sortedKeys_setInsert {w : List Char} {l : List (List Char)}
    (h : sortedKeys l) : sortedKeys (setInsert w l) := by
  induction l with
  | nil => simp [setInsert, sortedKeys]
  | cons y ys ih =>
    rcases List.pairwise_cons.mp h with ⟨hy, hys⟩
    unfold setInsert
    split
    · rename_i hwy
      refine List.pairwise_cons.mpr ⟨?_, h⟩
      intro z hz
      rcases List.mem_cons.mp hz with rfl | hz
      · exact hwy
      · exact compLt_trans hwy (hy z hz)
    · split
      · rename_i hyw
        refine List.pairwise_cons.mpr ⟨?_, ih hys⟩
        intro z hz
        rcases mem_of_mem_setInsert hz with rfl | hz
        · exact hyw
        · exact hy z hz
      · exact h

/-! ### The vocabulary set built by folding `setInsert` -/

theorem sortedKeys_foldl (ws : List (List Char)) (acc : List (List Char))
    (h : sortedKeys acc) : sortedKeys (ws.foldl (fun a w => setInsert w a) acc) := by
  induction ws generalizing acc with
  | nil => exact h
  | cons w ws ih => exact ih (setInsert w acc) (sortedKeys_setInsert h)

theorem foldl_covers (ws : List (List Char)) (acc : List (List Char)) (t : List Char)
    (h : t ∈ ws ∨ ∃ u ∈ acc, compEquiv t u = true) :
    ∃ u ∈ ws.foldl (fun a w => setInsert w a) acc, compEquiv t u = true := by
  induction ws generalizing acc with
  | nil =>
    rcases h with h | h
    · cases h
    · exact h
  | cons w ws ih =>
    apply ih (setInsert w acc)
    rcases h with h | ⟨u, hu, he⟩
    · rcases List.mem_cons.mp h with rfl | h
      · right
        obtain ⟨u, hu, he⟩ := setInsert_covers t acc
        exact ⟨u, hu, he⟩
      · left; exact h
    · right; exact ⟨u, mem_setInsert_of_mem hu, he⟩

theorem text_words_sortedKeys (text : List Char) : sortedKeys (text_words_ text) :=
  sortedKeys_foldl _ _ (List.Pairwise.nil)

theorem text_words_covers (text : List Char) (t : List Char)
    (h : t ∈ GetWordsFromStringView text) :
    ∃ u ∈ text_words_ text, compEquiv t u = true :=
  foldl_covers _ _ _ (Or.inl h)

/-! ### Tokens of the lines are the tokens of the text -/

theorem isAlpha_newline : isAlpha '\n' = false := by decide

theorem splitWordsAux_append_newline (a b : List Char) (acc : List Char) :
    splitWordsAux (a ++ '\n' :: b) acc = splitWordsAux a acc ++ splitWordsAux b [] := by
  induction a generalizing acc with
  | nil =>
    by_cases h : acc = []
    · simp [splitWordsAux, isAlpha_newline, h]
    · simp [splitWordsAux, isAlpha_newline, h]
  | cons c cs ih =>
    by_cases hc : isAlpha c = true
    · simp [splitWordsAux, hc, ih]
    · by_cases h : acc = []
      · simp [splitWordsAux, hc, h, ih]
      · simp [splitWordsAux, hc, h, ih]

theorem linesAux_words (s : List Char) (acc : List Char) :
    ((linesAux s acc).map GetWordsFromStringView).flatten =
      splitWordsAux (acc.reverse ++ s) [] := by
  induction s generalizing acc with
  | nil =>
    by_cases h : acc = []
    · simp [linesAux, h, splitWordsAux]
    · simp [linesAux, h, GetWordsFromStringView]
  | cons c cs ih =>
    by_cases hc : c = '\n'
    · subst hc
      by_cases h : acc = []
      · rw [show linesAux ('\n' :: cs) acc = linesAux cs [] by simp [linesAux, h]]
        rw [ih, splitWordsAux_append_newline]
        simp [h, splitWordsAux]
      · rw [show linesAux ('\n' :: cs) acc = acc.reverse :: linesAux cs [] by
          simp [linesAux, h]]
        rw [splitWordsAux_append_newline]
        simp only [List.map_cons, List.flatten_cons, ih, List.reverse_nil,
          List.nil_append, GetWordsFromStringView]
    · rw [show linesAux (c :: cs) acc = linesAux cs (c :: acc) by simp [linesAux, hc]]
      rw [ih]
      simp [List.append_assoc]

theorem words_of_lines_flatten (text : List Char) :
    ((GetLinesFromText text).map GetWordsFromStringView).flatten =
      GetWordsFromStringView text := by
  by_cases h : text = []
  · subst h
    simp [GetLinesFromText, GetWordsFromStringView, splitWordsAux]
  · rw [GetLinesFromText, if_neg h, linesAux_words]
    simp [GetWordsFromStringView]

/-! ### Counting tokens against the vocabulary -/

theorem countP_equiv_eq_one {V : List (List Char)} {t : List Char}
    (hs : sortedKeys V) (hc : ∃ u ∈ V, compEquiv t u = true) :
    V.countP (fun w => compEquiv t w) = 1 := by
  induction V with
  | nil => obtain ⟨u, hu, _⟩ := hc; cases hu
  | cons x xs ih =>
    rcases List.pairwise_cons.mp hs with ⟨hx, hxs⟩
    by_cases hteq : compEquiv t x = true
    · rw [List.countP_cons, if_pos (by simpa using hteq)]
      have hzero : xs.countP (fun w => compEquiv t w) = 0 := by
        rw [List.countP_eq_zero]
        intro y hy hty
        have h1 : lkey t = lkey x := (compEquiv_iff_lkey t x).mp hteq
        have h2 : lkey t = lkey y := (compEquiv_iff_lkey t y).mp (by simpa using hty)
        have hxy : compEquiv x y = true := (compEquiv_iff_lkey x y).mpr (h1 ▸ h2)
        have := (compLt_of_equiv_false x y hxy).1
        rw [hx y hy] at this
        cases this
      omega
    · rw [List.countP_cons, if_neg (by simpa using hteq)]
      have hc' : ∃ u ∈ xs, compEquiv t u = true := by
        obtain ⟨u, hu, he⟩ := hc
        rcases List.mem_cons.mp hu with rfl | hu
        · exact absurd he hteq
        · exact ⟨u, hu, he⟩
      simpa using ih hxs hc'

theorem sum_map_add_nat (l : List (List Char)) (f g : List Char → ℕ) :
    (l.map (fun x => f x + g x)).sum = (l.map f).sum + (l.map g).sum := by
  induction l with
  | nil => simp
  | cons x xs ih => simp [ih]; omega

theorem sum_map_ite_countP (V : List (List Char)) (q : List Char → Bool) :
    (V.map (fun w => if q w then 1 else 0)).sum = V.countP q := by
  induction V with
  | nil => simp
  | cons x xs ih =>
    rw [List.map_cons, List.sum_cons, List.countP_cons, ih]
    by_cases h : q x <;> simp [h] <;> omega

theorem sum_countP_eq_length {V : List (List Char)} (ws : List (List Char))
    (hs : sortedKeys V) (hcov : ∀ t ∈ ws, ∃ u ∈ V, compEquiv t u = true) :
    (V.map (fun w => ws.countP (fun t => compEquiv t w))).sum = ws.length := by
  induction ws with
  | nil => simp
  | cons t ts ih =>
    have hrec := ih (fun x hx => hcov x (List.mem_cons.mpr (Or.inr hx)))
    have hfun : (fun w => (t :: ts).countP (fun s => compEquiv s w)) =
        (fun w => ts.countP (fun s => compEquiv s w) +
          if compEquiv t w = true then 1 else 0) := by
      funext w
      rw [List.countP_cons]
    rw [hfun, sum_map_add_nat, hrec, sum_map_ite_countP,
      countP_equiv_eq_one hs (hcov t (List.mem_cons.mpr (Or.inl rfl))), List.length_cons]

/-! ### Term-frequency arithmetic helpers -/

theorem GetTFOfWordsInLine_ne_zero_iff (ws : List (List Char)) (w : List Char) :
    GetTFOfWordsInLine ws w ≠ 0 ↔ ws.countP (fun t => compEquiv t w) ≠ 0 := by
  unfold GetTFOfWordsInLine
  constructor
  · intro h hc
    rw [hc] at h
    simp at h
  · intro hc
    have hlen : ws.length ≠ 0 := by
      have := List.countP_le_length (p := fun t => compEquiv t w) (l := ws)
      omega
    have h1 : ((ws.countP (fun t => compEquiv t w) : ℚ)) ≠ 0 := by exact_mod_cast hc
    have h2 : ((ws.length : ℚ)) ≠ 0 := by exact_mod_cast hlen
    exact div_ne_zero h1 h2

theorem word_idf_count_eq (text : List Char) (w : List Char) :
    word_idf_count text w =
      ((nonIgnoredPositions text).map (fun i => (wordsInLines text).getD i [])).countP
        (fun ws => ws.countP (fun t => compEquiv t w) ≠ 0) := by
  unfold word_idf_count
  apply List.countP_congr
  intro ws _
  show decide (GetTFOfWordsInLine ws w ≠ 0) = true ↔
    decide (ws.countP (fun t => compEquiv t w) ≠ 0) = true
  simp only [decide_eq_true_eq]
  exact GetTFOfWordsInLine_ne_zero_iff ws w

theorem GetTFOfWordsInLine_nonneg (ws : List (List Char)) (w : List Char) :
    0 ≤ GetTFOfWordsInLine ws w := by
  unfold GetTFOfWordsInLine
  positivity

theorem sum_map_div_rat (l : List (List Char)) (f : List Char → ℕ) (c : ℚ) :
    (l.map (fun x => (f x : ℚ) / c)).sum = ((l.map f).sum : ℚ) / c := by
  induction l with
  | nil => simp
  | cons x xs ih =>
    rw [List.map_cons, List.sum_cons, ih, List.map_cons, List.sum_cons]
    push_cast
    rw [add_div]

theorem length_filter_add_length_filter_not {α : Type} (l : List α) (p : α → Bool) :
    (l.filter p).length + (l.filter (fun x => !(p x))).length = l.length := by
  induction l with
  | nil => rfl
  | cons x xs ih =>
    by_cases h : p x <;> simp [List.filter_cons, h, ← ih] <;> omega

/-! ### Index-layer bookkeeping lemmas -/

theorem wordsInLines_getD (text : List Char) (i : Nat) :
    (wordsInLines text).getD i [] = GetWordsFromStringView ((lines_ text).getD i []) := by
  by_cases h : i < (lines_ text).length
  · rw [wordsInLines, List.getD_eq_getElem?_getD, List.getElem?_map,
      List.getD_eq_getElem?_getD, List.getElem?_eq_getElem h]
    simp
  · have h1 : (lines_ text).length ≤ i := Nat.le_of_not_lt h
    have h2 : (wordsInLines text).length ≤ i := by
      rw [wordsInLines, List.length_map]; exact h1
    rw [List.getD_eq_getElem?_getD, List.getD_eq_getElem?_getD,
      List.getElem?_eq_none h1, List.getElem?_eq_none h2]
    rfl

theorem mem_nonIgnoredPositions (text : List Char) (i : Nat) :
    i ∈ nonIgnoredPositions text ↔
      i < (lines_ text).length ∧ ignoredB text i = false := by
  rw [nonIgnoredPositions, List.mem_filter, List.mem_range]
  simp

theorem word_idf_count_le (text : List Char) (w : List Char) :
    word_idf_count text w ≤ (lines_ text).length := by
  calc word_idf_count text w
      ≤ ((nonIgnoredPositions text).map (fun i => (wordsInLines text).getD i [])).length :=
        List.countP_le_length _
    _ = (nonIgnoredPositions text).length := List.length_map _ _
    _ ≤ (List.range (lines_ text).length).length := List.length_filter_le _ _
    _ = (lines_ text).length := List.length_range _

theorem word_idf_nonneg (text : List Char) (w : List Char) : 0 ≤ word_idf text w := by
  unfold word_idf
  split
  · rename_i h
    apply Real.log_nonneg
    rw [le_div_iff₀]
    · simp only [one_mul, Nat.cast_le]
      exact word_idf_count_le text w
    · exact_mod_cast Nat.pos_of_ne_zero h
  · exact le_refl 0

theorem words_relevance_nonneg (text : List Char) (w : List Char) :
    ∀ x ∈ words_relevance_in_lines_ text w, 0 ≤ x := by
  intro x hx
  rw [words_relevance_in_lines_, List.mem_map] at hx
  obtain ⟨i, _, rfl⟩ := hx
  have hall : ∀ q ∈ word_tf_in_line text w, 0 ≤ q := by
    intro q hq
    simp only [word_tf_in_line, List.mem_map] at hq
    obtain ⟨j, _, rfl⟩ := hq
    exact GetTFOfWordsInLine_nonneg _ _
  have htf : (0 : ℚ) ≤ (word_tf_in_line text w).getD i 0 := by
    rcases lt_or_le i (word_tf_in_line text w).length with h | h
    · rw [List.getD_eq_getElem?_getD, List.getElem?_eq_getElem h, Option.getD_some]
      exact hall _ (List.getElem_mem h)
    · rw [List.getD_eq_getElem?_getD, List.getElem?_eq_none h, Option.getD_none]
  have : (0 : ℝ) ≤ ((word_tf_in_line text w).getD i 0 : ℚ) := by exact_mod_cast htf
  exact mul_nonneg this (word_idf_nonneg text w)

theorem length_pos_of_mem_linesAux (s : List Char) (acc : List Char) (l : List Char)
    (h : l ∈ linesAux s acc) : 1 ≤ l.length := by
  induction s generalizing acc with
  | nil =>
    unfold linesAux at h
    split at h
    · cases h
    · rename_i hacc
      rcases List.mem_singleton.mp h with rfl
      have hne : acc.reverse ≠ [] := by simpa using hacc
      have := List.length_pos.mpr hne
      omega
  | cons c cs ih =>
    unfold linesAux at h
    split at h
    · split at h
      · exact ih _ h
      · rcases List.mem_cons.mp h with rfl | h
        · rename_i hacc
          have hne : acc.reverse ≠ [] := by simpa using hacc
          have := List.length_pos.mpr hne
          omega
        · exact ih _ h
    · exact ih _ h

/-! ### Claim C3: line splitting and empty lines -/

/-- C3 (counterexample): the claim fails at the empty text. `GetLinesFromText`
on the empty text returns one line, the empty line, instead of an empty
sequence, so not every returned line has length at least 1. -/
theorem empty_text_line_counterexample :
    GetLinesFromText ([] : List Char) = [[]] ∧
      ¬ ∀ l ∈ GetLinesFromText ([] : List Char), 1 ≤ l.length := by
  refine ⟨by decide, ?_⟩
  intro h
  simpa using h [] (by decide)

/-- C3 (amended): for every non-empty input text, every element of the
sequence returned by `GetLinesFromText` has length at least one character;
the empty text instead yields the one-element sequence holding the empty
line. -/
theorem lines_length_pos (s : List Char) (hs : s ≠ []) :
    ∀ l ∈ GetLinesFromText s, 1 ≤ l.length := by
  intro l hl
  rw [GetLinesFromText, if_neg hs] at hl
  exact length_pos_of_mem_linesAux s [] l hl

/-- Witness for C3's amended theorem at the concrete text `"123\ncat dog"`. -/
theorem lines_length_pos_witness : 1 ≤ (("123".toList : List Char)).length :=
  lines_length_pos exText2 (by decide) ("123".toList) (by decide)

/-! ### Claim C9: the TF division never divides by zero -/

/-- C9: for every line position `i` that `BuildIndex` does not skip — `i` in
range and not on the ignore list — the extracted word list of line `i` is
non-empty, so the divisor `words_in_line.size()` used by `GetTFOfWordsInLine`
is positive and the rational division is by a non-zero denominator. -/
theorem tf_divisor_pos (text : List Char) (i : Nat)
    (h1 : i < (lines_ text).length) (h2 : ignoredB text i = false) :
    0 < ((wordsInLines text).getD i []).length ∧
      (((wordsInLines text).getD i []).length : ℚ) ≠ 0 := by
  have hne : (wordsInLines text).getD i [] ≠ [] := by
    intro h0
    have hT : ignoredB text i = true := by
      unfold ignoredB
      rw [h0]
      rfl
    rw [h2] at hT
    cases hT
  have hpos := List.length_pos.mpr hne
  refine ⟨hpos, ?_⟩
  exact_mod_cast Nat.pos_iff_ne_zero.mp hpos

/-- Witness for C9 at text `"123\ncat dog"`, line 1. -/
theorem tf_divisor_pos_witness :
    0 < ((wordsInLines exText2).getD 1 []).length ∧
      (((wordsInLines exText2).getD 1 []).length : ℚ) ≠ 0 :=
  tf_divisor_pos exText2 1 (by decide) (by decide)

/-! ### Claim C5: the IDF formula -/

/-- C5: after `BuildIndex`, `word_idf w` equals `ln(N / df(w))` when
`df(w) > 0` and `0` when `df(w) = 0`, where `df(w)` counts the non-ignored
lines whose TF for `w` is non-zero, and `N` is the length of the retained
line sequence — the non-ignored positions plus the ignored ones. -/
theorem idf_formula (text : List Char) (w : List Char) :
    word_idf text w =
      (if 0 < word_idf_count text w then
        Real.log (((lines_ text).length : ℝ) / (word_idf_count text w : ℝ))
      else 0) ∧
    word_idf_count text w =
      ((nonIgnoredPositions text).map (fun i => (wordsInLines text).getD i [])).countP
        (fun ws => GetTFOfWordsInLine ws w ≠ 0) ∧
    (lines_ text).length =
      (nonIgnoredPositions text).length +
        ((List.range (lines_ text).length).filter (fun i => ignoredB text i)).length := by
  refine ⟨?_, rfl, ?_⟩
  · unfold word_idf
    by_cases h : word_idf_count text w = 0
    · simp [h]
    · rw [if_pos h, if_pos (Nat.pos_of_ne_zero h)]
  · have hsplit := length_filter_add_length_filter_not (List.range (lines_ text).length)
      (fun i => !(ignoredB text i))
    simp only [Bool.not_not] at hsplit
    unfold nonIgnoredPositions
    rw [List.length_range] at hsplit
    omega

/-! ### Claim C2: the per-line score sequences are compacted and misaligned -/

/-- The word `"cat"` of the misalignment example. -/
def exWordCat : List Char := "cat".toList

/-- C2: against the claim, the stored per-line sequences do not keep one entry
per retained line. In text `"123\ncat dog"` line 0 is ignored, so with 2
retained lines the TF sequence of the vocabulary word `cat` holds a single
entry; the loops of `BuildIndex` and `Search` nevertheless subscript it with
the global position 1 (the non-ignored line), which is out of range — the
defaulted read returns 0 although line 1's TF for `cat` is 1/2 — and the
relevance sequence likewise holds one entry, not one per retained line. -/
theorem compacted_index_misalignment :
    (exWordCat ∈ text_words_ exText2) ∧
    (lines_ exText2).length = 2 ∧
    nonIgnoredPositions exText2 = [1] ∧
    (word_tf_in_line exText2 exWordCat).length = 1 ∧
    ¬ 1 < (word_tf_in_line exText2 exWordCat).length ∧
    (word_tf_in_line exText2 exWordCat).getD 1 0 = 0 ∧
    GetTFOfWordsInLine ((wordsInLines exText2).getD 1 []) exWordCat = 1 / 2 ∧
    (words_relevance_in_lines_ exText2 exWordCat).length = 1 := by
  have hpos : nonIgnoredPositions exText2 = [1] := by decide
  have hlen : (word_tf_in_line exText2 exWordCat).length = 1 := by
    simp [word_tf_in_line, hpos]
  refine ⟨by decide, by decide, hpos, hlen, by omega, ?_, ?_, ?_⟩
  · rw [List.getD_eq_getElem?_getD, List.getElem?_eq_none (by omega), Option.getD_none]
  · have hc : ((wordsInLines exText2).getD 1 []).countP
        (fun t => compEquiv t exWordCat) = 1 := by decide
    have hl : ((wordsInLines exText2).getD 1 []).length = 2 := by decide
    unfold GetTFOfWordsInLine
    rw [hc, hl]
    norm_num
  · simp [words_relevance_in_lines_, hpos]

/-! ### Claim C10: the vocabulary covers every line's tokens -/

/-- C10: for every non-ignored line of a built text, every extracted token is
`Comp`-equivalent to some vocabulary entry, the per-word match counts over the
vocabulary sum to the line's token count, and the line's TF values over the
vocabulary sum to exactly 1 in exact rational arithmetic. -/
theorem vocabulary_covers_lines (text : List Char) (i : Nat)
    (h1 : i < (lines_ text).length) (h2 : ignoredB text i = false) :
    (∀ t ∈ (wordsInLines text).getD i [],
      ∃ u ∈ text_words_ text, compEquiv t u = true) ∧
    ((text_words_ text).map
        (fun w => ((wordsInLines text).getD i []).countP (fun t => compEquiv t w))).sum =
      ((wordsInLines text).getD i []).length ∧
    ((text_words_ text).map
        (fun w => GetTFOfWordsInLine ((wordsInLines text).getD i []) w)).sum = 1 := by
  have hlen : i < (wordsInLines text).length := by
    rw [wordsInLines, List.length_map]; exact h1
  have hmem : (wordsInLines text).getD i [] ∈ wordsInLines text := by
    rw [List.getD_eq_getElem?_getD, List.getElem?_eq_getElem hlen, Option.getD_some]
    exact List.getElem_mem hlen
  have hcov : ∀ t ∈ (wordsInLines text).getD i [],
      ∃ u ∈ text_words_ text, compEquiv t u = true := by
    intro t ht
    apply text_words_covers
    rw [← words_of_lines_flatten text]
    exact List.mem_flatten.mpr ⟨(wordsInLines text).getD i [], hmem, ht⟩
  have hne : (wordsInLines text).getD i [] ≠ [] := by
    intro h0
    have hT : ignoredB text i = true := by
      unfold ignoredB
      rw [h0]
      rfl
    rw [h2] at hT
    cases hT
  have hlq : (((wordsInLines text).getD i []).length : ℚ) ≠ 0 := by
    exact_mod_cast Nat.pos_iff_ne_zero.mp (List.length_pos.mpr hne)
  refine ⟨hcov, sum_countP_eq_length _ (text_words_sortedKeys text) hcov, ?_⟩
  calc ((text_words_ text).map
        (fun w => GetTFOfWordsInLine ((wordsInLines text).getD i []) w)).sum
      = ((text_words_ text).map (fun w =>
          ((((wordsInLines text).getD i []).countP (fun t => compEquiv t w) : ℚ)) /
            (((wordsInLines text).getD i []).length : ℚ))).sum := rfl
    _ = (((text_words_ text).map (fun w =>
          ((wordsInLines text).getD i []).countP (fun t => compEquiv t w))).sum : ℚ) /
            (((wordsInLines text).getD i []).length : ℚ) := sum_map_div_rat _ _ _
    _ = 1 := by
        rw [sum_countP_eq_length _ (text_words_sortedKeys text) hcov]
        exact div_self hlq

/-- Witness for C10 at text `"cat sat\ndog ran\ncat cat cat"`, line 0. -/
theorem vocabulary_covers_lines_witness :
    (∀ t ∈ (wordsInLines exText3).getD 0 [],
      ∃ u ∈ text_words_ exText3, compEquiv t u = true) ∧
    ((text_words_ exText3).map
        (fun w => ((wordsInLines exText3).getD 0 []).countP (fun t => compEquiv t w))).sum =
      ((wordsInLines exText3).getD 0 []).length ∧
    ((text_words_ exText3).map
        (fun w => GetTFOfWordsInLine ((wordsInLines exText3).getD 0 []) w)).sum = 1 :=
  vocabulary_covers_lines exText3 0 (by decide) (by decide)

/-! ### Claim C8: relevance scores are non-negative -/

/-- C8: after every `BuildIndex`, every entry of the relevance table is at
least 0, and a word matching no token of any non-ignored line has relevance 0
in every entry of its row. -/
theorem relevance_nonneg (text : List Char) (w : List Char) :
    (∀ x ∈ words_relevance_in_lines_ text w, 0 ≤ x) ∧
    ((∀ i ∈ nonIgnoredPositions text,
        ((wordsInLines text).getD i []).countP (fun t => compEquiv t w) = 0) →
      ∀ x ∈ words_relevance_in_lines_ text w, x = 0) := by
  refine ⟨words_relevance_nonneg text w, ?_⟩
  intro H x hx
  rw [words_relevance_in_lines_, List.mem_map] at hx
  obtain ⟨i, hi, rfl⟩ := hx
  have hcol : ∀ q ∈ word_tf_in_line text w, q = 0 := by
    intro q hq
    simp only [word_tf_in_line, List.mem_map] at hq
    obtain ⟨j, hj, rfl⟩ := hq
    have hcnt := H j hj
    unfold GetTFOfWordsInLine
    rw [hcnt]
    simp
  have hgd : (word_tf_in_line text w).getD i 0 = 0 := by
    rcases lt_or_le i (word_tf_in_line text w).length with h | h
    · rw [List.getD_eq_getElem?_getD, List.getElem?_eq_getElem h, Option.getD_some]
      exact hcol _ (List.getElem_mem h)
    · rw [List.getD_eq_getElem?_getD, List.getElem?_eq_none h, Option.getD_none]
  rw [hgd]
  simp

/-! ### Query-engine lemmas -/

theorem not_ignored_words_ne_nil {text : List Char} {i : Nat}
    (h2 : ignoredB text i = false) : (wordsInLines text).getD i [] ≠ [] := by
  intro h0
  have hT : ignoredB text i = true := by
    unfold ignoredB
    rw [h0]
    rfl
  rw [h2] at hT
  cases hT

theorem getD_nonneg_of_forall {l : List ℝ} {i : Nat} (h : ∀ x ∈ l, 0 ≤ x) :
    0 ≤ l.getD i 0 := by
  rcases lt_or_le i l.length with hlt | hle
  · rw [List.getD_eq_getElem?_getD, List.getElem?_eq_getElem hlt, Option.getD_some]
    exact h _ (List.getElem_mem hlt)
  · rw [List.getD_eq_getElem?_getD, List.getElem?_eq_none hle, Option.getD_none]

theorem lineScore_nonneg (text : List Char) (queryWords : List (List Char)) (i : Nat) :
    0 ≤ lineScore text queryWords i := by
  unfold lineScore
  apply List.sum_nonneg
  intro x hx
  rw [List.mem_map] at hx
  obtain ⟨w, _, rfl⟩ := hx
  split
  · exact getD_nonneg_of_forall (words_relevance_nonneg text w)
  · exact le_refl 0

theorem takeResults_length_le (k : Nat) (l : List (ℝ × Nat)) :
    (takeResults k l).length ≤ k := by
  induction l generalizing k with
  | nil => cases k <;> simp [takeResults]
  | cons x xs ih =>
    cases k with
    | zero => simp [takeResults]
    | succ k =>
      unfold takeResults
      split
      · simp
      · simp only [List.length_cons]
        have := ih k
        omega

theorem mem_takeResults (k : Nat) (l : List (ℝ × Nat)) (p : Nat)
    (hp : p ∈ takeResults k l) : ∃ x ∈ l, x.2 = p ∧ x.1 ≠ 0 := by
  induction l generalizing k with
  | nil => cases k <;> simp [takeResults] at hp
  | cons x xs ih =>
    cases k with
    | zero => simp [takeResults] at hp
    | succ k =>
      unfold takeResults at hp
      split at hp
      · cases hp
      · rcases List.mem_cons.mp hp with rfl | hp
        · rename_i hne
          exact ⟨x, List.mem_cons.mpr (Or.inl rfl), rfl, hne⟩
        · obtain ⟨y, hy, hy2, hy1⟩ := ih k hp
          exact ⟨y, List.mem_cons.mpr (Or.inr hy), hy2, hy1⟩

theorem mem_sortedRelevance (text : List Char) (queryWords : List (List Char))
    (x : ℝ × Nat) :
    x ∈ sortedRelevance text queryWords ↔ x ∈ lines_relevance text queryWords := by
  rw [sortedRelevance, List.mem_reverse, List.mem_insertionSort, List.mem_reverse]

/-! ### Claim C7: result membership and truncation -/

/-- C7: for every built index, query and `top_k`, the result of `Search` has
length at most `top_k`; `Search` with `top_k = 0` is empty; and every returned
line is a non-ignored retained line whose computed score is strictly positive
— in particular no returned line is ignored (each has at least one alphabetic
token). -/
theorem search_membership_truncation (text query : List Char) (k : Nat) :
    (Search text query k).length ≤ k ∧
    Search text query 0 = [] ∧
    ∀ s ∈ Search text query k, ∃ p,
      p < (lines_ text).length ∧
      ignoredB text p = false ∧
      s = (lines_ text).getD p [] ∧
      0 < lineScore text (GetUniqueWordsFromStringView query) p ∧
      GetWordsFromStringView s ≠ [] := by
  refine ⟨?_, ?_, ?_⟩
  · unfold Search
    split
    · simp
    · rw [List.length_map]
      exact takeResults_length_le _ _
  · unfold Search
    rw [if_pos (Or.inl rfl)]
  · intro s hs
    unfold Search at hs
    split at hs
    · cases hs
    · rw [List.mem_map] at hs
      obtain ⟨p, hp, rfl⟩ := hs
      obtain ⟨x, hx, hx2, hx1⟩ := mem_takeResults _ _ _ hp
      rw [mem_sortedRelevance] at hx
      simp only [lines_relevance, List.mem_map] at hx
      obtain ⟨i, hi, hxi⟩ := hx
      obtain ⟨hilt, hig⟩ := (mem_nonIgnoredPositions text i).mp hi
      have hp2 : i = p := by rw [← hx2, ← hxi]
      subst hp2
      have hscore : x.1 = lineScore text (GetUniqueWordsFromStringView query) i := by
        rw [← hxi]
      refine ⟨i, hilt, hig, rfl, ?_, ?_⟩
      · rcases lt_or_eq_of_le (lineScore_nonneg text (GetUniqueWordsFromStringView query) i)
          with h | h
        · exact h
        · exact absurd (hscore.trans h.symm) hx1
      · rw [← wordsInLines_getD]
        exact not_ignored_words_ne_nil hig

/-! ### Evaluation helpers for concrete searches -/

theorem cmpRelevance_near_iff {a b : ℝ × Nat} (h : |a.1 - b.1| < ERROR) :
    cmpRelevance a b ↔ b.2 < a.2 := by
  unfold cmpRelevance
  rw [if_pos h]

theorem cmpRelevance_far_iff {a b : ℝ × Nat} (h : ERROR ≤ |a.1 - b.1|) :
    cmpRelevance a b ↔ a.1 < b.1 := by
  unfold cmpRelevance
  rw [if_neg (not_lt.mpr h)]

theorem orderedInsert_cons_pos (a b : ℝ × Nat) (l : List (ℝ × Nat))
    (h : cmpRelevance a b) :
    List.orderedInsert cmpRelevance a (b :: l) = a :: b :: l := by
  simp only [List.orderedInsert]
  rw [if_pos h]

theorem orderedInsert_cons_neg (a b : ℝ × Nat) (l : List (ℝ × Nat))
    (h : ¬ cmpRelevance a b) :
    List.orderedInsert cmpRelevance a (b :: l) = b :: List.orderedInsert cmpRelevance a l := by
  simp only [List.orderedInsert]
  rw [if_neg h]

theorem insertionSort_pair_pos (a b : ℝ × Nat) (h : cmpRelevance a b) :
    List.insertionSort cmpRelevance [a, b] = [a, b] := by
  show List.orderedInsert cmpRelevance a (List.orderedInsert cmpRelevance b []) = [a, b]
  rw [List.orderedInsert_nil, orderedInsert_cons_pos a b [] h]

theorem insertionSort_triple (a b c : ℝ × Nat) (h1 : cmpRelevance b c)
    (h2 : ¬ cmpRelevance a b) (h3 : ¬ cmpRelevance a c) :
    List.insertionSort cmpRelevance [a, b, c] = [b, c, a] := by
  show List.orderedInsert cmpRelevance a
    (List.orderedInsert cmpRelevance b (List.orderedInsert cmpRelevance c [])) = [b, c, a]
  rw [List.orderedInsert_nil, orderedInsert_cons_pos b c [] h1,
    orderedInsert_cons_neg a b _ h2, orderedInsert_cons_neg a c _ h3,
    List.orderedInsert_nil]

theorem takeResults_succ (k : Nat) (x : ℝ × Nat) (xs : List (ℝ × Nat)) :
    takeResults (k + 1) (x :: xs) = if x.1 = 0 then [] else x.2 :: takeResults k xs := rfl

/-- Lower bound used for the concrete searches: `ln 2 ≥ 1/2`. -/
theorem log_two_ge : (1 : ℝ) / 2 ≤ Real.log 2 := by
  have h1 : Real.log ((2 : ℝ)⁻¹) ≤ (2 : ℝ)⁻¹ - 1 :=
    Real.log_le_sub_one_of_pos (by norm_num)
  rw [Real.log_inv] at h1
  linarith

/-- Lower bound used for the concrete searches: `ln (3/2) ≥ 1/3`. -/
theorem log_three_half_ge : (1 : ℝ) / 3 ≤ Real.log ((3 : ℝ) / 2) := by
  have h1 : Real.log ((2 : ℝ) / 3) ≤ (2 : ℝ) / 3 - 1 :=
    Real.log_le_sub_one_of_pos (by norm_num)
  have h2 : Real.log ((3 : ℝ) / 2) = -Real.log ((2 : ℝ) / 3) := by
    rw [← Real.log_inv]
    norm_num
  linarith

/-! ### Claim C1: case-sensitive relevance lookup in `Search` -/

/-- The query `"Apple"` of the case-sensitivity example. -/
def exQueryUpper : List Char := "Apple".toList

/-- The query `"apple"` (also the canonical vocabulary key) of the
case-sensitivity example. -/
def exWordApple : List Char := "apple".toList

/-- The first line of `exText1`. -/
def exLineApplePie : List Char := "apple pie".toList

/-- C1: case-insensitive querying fails. Against the index built from
`"apple pie\nbanana split"`, `Search` with query `"apple"` returns the line
`"apple pie"` but `Search` with the case-variant `"Apple"` returns nothing:
the query word survives deduplication in its original casing and the
relevance table is a `std::unordered_map` looked up with case-sensitive
equality, so `"Apple"` misses the canonical key `"apple"`. -/
theorem case_sensitive_lookup_divergence :
    Search exText1 exQueryUpper 1 = [] ∧
    Search exText1 exWordApple 1 = [exLineApplePie] ∧
    ¬ Search exText1 exQueryUpper 1 = Search exText1 exWordApple 1 := by
  have hlne : ¬ lines_ exText1 = [] := by decide
  have hcond : ¬ ((1 : Nat) = 0 ∨ lines_ exText1 = []) := by simp [hlne]
  have hpos : nonIgnoredPositions exText1 = [0, 1] := by decide
  have hlines : lines_ exText1 = [exLineApplePie, "banana split".toList] := by decide
  have hlog2pos : 0 < Real.log 2 := Real.log_pos (by norm_num)
  -- the "Apple" search
  have hqA : GetUniqueWordsFromStringView exQueryUpper = [exQueryUpper] := by decide
  have hmemA : ¬ exQueryUpper ∈ text_words_ exText1 := by decide
  have hsA : ∀ i : Nat, lineScore exText1 [exQueryUpper] i = 0 := by
    intro i
    simp [lineScore, hmemA]
  have hlrA : lines_relevance exText1 [exQueryUpper] = [((0 : ℝ), 0), ((0 : ℝ), 1)] := by
    simp [lines_relevance, hpos, hsA]
  have hcmpA : cmpRelevance ((0 : ℝ), 1) ((0 : ℝ), 0) := by
    refine (cmpRelevance_near_iff ?_).mpr ?_
    · unfold ERROR
      norm_num
    · norm_num
  have hsortA : sortedRelevance exText1 [exQueryUpper] = [((0 : ℝ), 0), ((0 : ℝ), 1)] := by
    unfold sortedRelevance
    rw [hlrA]
    rw [show ([((0 : ℝ), 0), ((0 : ℝ), 1)]).reverse = [((0 : ℝ), 1), ((0 : ℝ), 0)] from rfl]
    rw [insertionSort_pair_pos _ _ hcmpA]
    rfl
  have hresA : Search exText1 exQueryUpper 1 = [] := by
    unfold Search
    rw [if_neg hcond, hqA, hsortA]
    rw [show takeResults 1 [((0 : ℝ), 0), ((0 : ℝ), 1)] =
      (if (0 : ℝ) = 0 then [] else [(0 : Nat)]) from rfl]
    rw [if_pos rfl]
    rfl
  -- the "apple" search
  have hqa : GetUniqueWordsFromStringView exWordApple = [exWordApple] := by decide
  have hmema : exWordApple ∈ text_words_ exText1 := by decide
  have hdfa : word_idf_count exText1 exWordApple = 1 := by
    rw [word_idf_count_eq]
    decide
  have hidfa : word_idf exText1 exWordApple = Real.log 2 := by
    unfold word_idf
    rw [hdfa, if_pos (by norm_num)]
    rw [show (lines_ exText1).length = 2 from by decide]
    norm_num
  have htf0 : GetTFOfWordsInLine ((wordsInLines exText1).getD 0 []) exWordApple = 1 / 2 := by
    have hc : ((wordsInLines exText1).getD 0 []).countP
        (fun t => compEquiv t exWordApple) = 1 := by decide
    have hl : ((wordsInLines exText1).getD 0 []).length = 2 := by decide
    unfold GetTFOfWordsInLine
    rw [hc, hl]
    norm_num
  have htf1 : GetTFOfWordsInLine ((wordsInLines exText1).getD 1 []) exWordApple = 0 := by
    have hc : ((wordsInLines exText1).getD 1 []).countP
        (fun t => compEquiv t exWordApple) = 0 := by decide
    unfold GetTFOfWordsInLine
    rw [hc]
    norm_num
  have htfa : word_tf_in_line exText1 exWordApple = [1 / 2, 0] := by
    simp only [word_tf_in_line, hpos, List.map_cons, List.map_nil]
    rw [htf0, htf1]
  have hg0 : (word_tf_in_line exText1 exWordApple).getD 0 0 = 1 / 2 := by
    rw [htfa]
    rfl
  have hg1 : (word_tf_in_line exText1 exWordApple).getD 1 0 = 0 := by
    rw [htfa]
    rfl
  have hrela : words_relevance_in_lines_ exText1 exWordApple =
      [(1 / 2 : ℝ) * Real.log 2, 0] := by
    simp only [words_relevance_in_lines_, hpos, List.map_cons, List.map_nil, hg0, hg1, hidfa]
    norm_num
  have hs0 : lineScore exText1 [exWordApple] 0 = (1 / 2 : ℝ) * Real.log 2 := by
    unfold lineScore
    rw [List.map_cons, List.map_nil, if_pos hmema]
    rw [show (words_relevance_in_lines_ exText1 exWordApple).getD 0 0 =
      (1 / 2 : ℝ) * Real.log 2 from by rw [hrela]; rfl]
    simp
  have hs1 : lineScore exText1 [exWordApple] 1 = 0 := by
    unfold lineScore
    rw [List.map_cons, List.map_nil, if_pos hmema]
    rw [show (words_relevance_in_lines_ exText1 exWordApple).getD 1 0 = (0 : ℝ) from by
      rw [hrela]; rfl]
    simp
  have hlra : lines_relevance exText1 [exWordApple] =
      [((1 / 2 : ℝ) * Real.log 2, 0), ((0 : ℝ), 1)] := by
    simp [lines_relevance, hpos, hs0, hs1]
  have hcmpa : cmpRelevance ((0 : ℝ), 1) ((1 / 2 : ℝ) * Real.log 2, 0) := by
    refine (cmpRelevance_far_iff ?_).mpr ?_
    · unfold ERROR
      rw [show |(0 : ℝ) - (1 / 2 : ℝ) * Real.log 2| = (1 / 2 : ℝ) * Real.log 2 by
        rw [zero_sub, abs_neg, abs_of_pos (by nlinarith [log_two_ge])]]
      nlinarith [log_two_ge]
    · show (0 : ℝ) < (1 / 2 : ℝ) * Real.log 2
      nlinarith [log_two_ge]
  have hsorta : sortedRelevance exText1 [exWordApple] =
      [((1 / 2 : ℝ) * Real.log 2, 0), ((0 : ℝ), 1)] := by
    unfold sortedRelevance
    rw [hlra]
    rw [show ([((1 / 2 : ℝ) * Real.log 2, 0), ((0 : ℝ), 1)]).reverse =
      [((0 : ℝ), 1), ((1 / 2 : ℝ) * Real.log 2, 0)] from rfl]
    rw [insertionSort_pair_pos _ _ hcmpa]
    rfl
  have hresa : Search exText1 exWordApple 1 = [exLineApplePie] := by
    unfold Search
    rw [if_neg hcond, hqa, hsorta]
    rw [show takeResults 1 [((1 / 2 : ℝ) * Real.log 2, 0), ((0 : ℝ), 1)] =
      (if (1 / 2 : ℝ) * Real.log 2 = 0 then [] else [(0 : Nat)]) from rfl]
    rw [if_neg (by nlinarith [log_two_ge])]
    rw [List.map_cons, List.map_nil, hlines]
    rfl
  refine ⟨hresA, hresa, ?_⟩
  rw [hresA, hresa]
  intro h
  cases h

/-! ### Order theory of the tolerance comparator -/

theorem ERROR_pos : 0 < ERROR := by
  unfold ERROR
  norm_num

theorem cmpRelevance_asymm {a b : ℝ × Nat} (h : cmpRelevance a b) : ¬ cmpRelevance b a := by
  unfold cmpRelevance at h ⊢
  by_cases htie : |a.1 - b.1| < ERROR
  · rw [if_pos htie] at h
    rw [if_pos (by rwa [abs_sub_comm])]
    omega
  · rw [if_neg htie] at h
    rw [if_neg (by rwa [abs_sub_comm] at htie)]
    exact not_lt.mpr (le_of_lt h)

theorem orderedInsert_pairwise_tie (x : ℝ × Nat) (S : List (ℝ × Nat))
    (hS : S.Pairwise (fun a b => |a.1 - b.1| < ERROR → b.2 < a.2))
    (hpos : ∀ y ∈ S, y.2 < x.2) :
    (List.orderedInsert cmpRelevance x S).Pairwise
      (fun a b => |a.1 - b.1| < ERROR → b.2 < a.2) := by
  induction S with
  | nil => simp
  | cons y ys ih =>
    rcases List.pairwise_cons.mp hS with ⟨hy, hys⟩
    by_cases hc : cmpRelevance x y
    · rw [orderedInsert_cons_pos _ _ _ hc]
      refine List.pairwise_cons.mpr ⟨?_, hS⟩
      intro z hz _
      exact hpos z hz
    · rw [orderedInsert_cons_neg _ _ _ hc]
      refine List.pairwise_cons.mpr
        ⟨?_, ih hys (fun z hz => hpos z (List.mem_cons.mpr (Or.inr hz)))⟩
      intro z hz htie
      rcases (List.mem_orderedInsert cmpRelevance).mp hz with rfl | hz2
      · exact absurd (show cmpRelevance z y by
          unfold cmpRelevance
          rw [if_pos (by rwa [abs_sub_comm] at htie)]
          exact hpos y (List.mem_cons.mpr (Or.inl rfl))) hc
      · exact hy z hz2 htie

theorem insertionSort_pairwise_tie (l : List (ℝ × Nat))
    (h : l.Pairwise (fun a b => b.2 < a.2)) :
    (List.insertionSort cmpRelevance l).Pairwise
      (fun a b => |a.1 - b.1| < ERROR → b.2 < a.2) := by
  induction l with
  | nil => simp
  | cons x xs ih =>
    rcases List.pairwise_cons.mp h with ⟨hx, hxs⟩
    show (List.orderedInsert cmpRelevance x (List.insertionSort cmpRelevance xs)).Pairwise _
    refine orderedInsert_pairwise_tie _ _ (ih hxs) ?_
    intro y hy
    exact hx y ((List.mem_insertionSort cmpRelevance).mp hy)

theorem chain'_orderedInsert (x : ℝ × Nat) (S : List (ℝ × Nat))
    (hS : S.Chain' (fun a b => ¬ cmpRelevance b a)) :
    (List.orderedInsert cmpRelevance x S).Chain' (fun a b => ¬ cmpRelevance b a) := by
  induction S with
  | nil => simp
  | cons y ys ih =>
    by_cases hc : cmpRelevance x y
    · rw [orderedInsert_cons_pos _ _ _ hc]
      exact List.chain'_cons.mpr ⟨cmpRelevance_asymm hc, hS⟩
    · rw [orderedInsert_cons_neg _ _ _ hc]
      rcases List.chain'_cons'.mp hS with ⟨hhead, hys⟩
      refine List.chain'_cons'.mpr ⟨?_, ih hys⟩
      intro z hz
      cases ys with
      | nil =>
        simp only [List.orderedInsert_nil, List.head?_cons, Option.mem_def,
          Option.some.injEq] at hz
        subst hz
        exact hc
      | cons w ws =>
        by_cases hcw : cmpRelevance x w
        · rw [orderedInsert_cons_pos _ _ _ hcw] at hz
          simp only [List.head?_cons, Option.mem_def, Option.some.injEq] at hz
          subst hz
          exact hc
        · rw [orderedInsert_cons_neg _ _ _ hcw] at hz
          simp only [List.head?_cons, Option.mem_def, Option.some.injEq] at hz
          subst hz
          exact hhead w (by simp)

theorem chain'_insertionSort (l : List (ℝ × Nat)) :
    (List.insertionSort cmpRelevance l).Chain' (fun a b => ¬ cmpRelevance b a) := by
  induction l with
  | nil => simp
  | cons x xs ih =>
    show (List.orderedInsert cmpRelevance x (List.insertionSort cmpRelevance xs)).Chain' _
    exact chain'_orderedInsert x _ ih

theorem nonIgnoredPositions_pairwise (text : List Char) :
    (nonIgnoredPositions text).Pairwise (· < ·) :=
  (List.pairwise_lt_range _).filter _

theorem lines_relevance_pairwise_pos (text : List Char) (queryWords : List (List Char)) :
    (lines_relevance text queryWords).Pairwise (fun a b => a.2 < b.2) := by
  unfold lines_relevance
  rw [List.pairwise_map]
  exact nonIgnoredPositions_pairwise text

theorem sortedRelevance_pairwise_tie (text : List Char) (queryWords : List (List Char)) :
    (sortedRelevance text queryWords).Pairwise
      (fun x y => |x.1 - y.1| < ERROR → x.2 < y.2) := by
  unfold sortedRelevance
  rw [List.pairwise_reverse]
  have hin : ((lines_relevance text queryWords).reverse).Pairwise
      (fun a b => b.2 < a.2) := by
    rw [List.pairwise_reverse]
    exact lines_relevance_pairwise_pos text queryWords
  refine (insertionSort_pairwise_tie _ hin).imp ?_
  intro a b hab h
  exact hab (by rwa [abs_sub_comm])

theorem sortedRelevance_chain'_desc (text : List Char) (queryWords : List (List Char)) :
    (sortedRelevance text queryWords).Chain'
      (fun x y => ERROR ≤ |x.1 - y.1| → y.1 < x.1) := by
  unfold sortedRelevance
  rw [List.chain'_reverse]
  refine (chain'_insertionSort ((lines_relevance text queryWords).reverse)).imp ?_
  intro a b hab
  show ERROR ≤ |b.1 - a.1| → a.1 < b.1
  intro hfar
  unfold cmpRelevance at hab
  rw [if_neg (not_lt.mpr hfar)] at hab
  rcases lt_or_eq_of_le (not_lt.mp hab) with h | h
  · exact h
  · exfalso
    rw [h, sub_self, abs_zero] at hfar
    exact absurd (lt_of_lt_of_le ERROR_pos hfar) (lt_irrefl 0)

theorem takeResults_eq_prefix_map (k : Nat) (l : List (ℝ × Nat)) :
    ∃ p r, l = p ++ r ∧ takeResults k l = p.map Prod.snd := by
  induction l generalizing k with
  | nil => exact ⟨[], [], rfl, by cases k <;> rfl⟩
  | cons x xs ih =>
    cases k with
    | zero => exact ⟨[], x :: xs, rfl, rfl⟩
    | succ k =>
      by_cases hx : x.1 = 0
      · refine ⟨[], x :: xs, rfl, ?_⟩
        rw [takeResults_succ, if_pos hx]
        rfl
      · obtain ⟨p, r, hpr, hmap⟩ := ih k
        refine ⟨x :: p, r, by rw [List.cons_append, ← hpr], ?_⟩
        rw [takeResults_succ, if_neg hx, List.map_cons, hmap]

/-! ### Claim C6 (amended): the tie-break protocol that actually holds -/

/-- C6 (amended): the ranked sequence `Search` reads its output from is
pairwise ordered by ascending original position on every pair of records
whose scores are within `ERROR` of each other, and on *adjacent* records
whose scores differ by at least `ERROR` it is strictly descending by score;
each record carries the computed score of its line, and the returned lines
are the initial segment of this sequence that the output loop emits. The
global descending guarantee for non-adjacent pairs does not hold — see the
chain counterexample. -/
theorem tie_break_order (text query : List Char) (k : Nat) :
    (sortedRelevance text (GetUniqueWordsFromStringView query)).Pairwise
      (fun x y => |x.1 - y.1| < ERROR → x.2 < y.2) ∧
    (sortedRelevance text (GetUniqueWordsFromStringView query)).Chain'
      (fun x y => ERROR ≤ |x.1 - y.1| → y.1 < x.1) ∧
    (∀ x ∈ sortedRelevance text (GetUniqueWordsFromStringView query),
      x.1 = lineScore text (GetUniqueWordsFromStringView query) x.2) ∧
    (∃ p r, sortedRelevance text (GetUniqueWordsFromStringView query) = p ++ r ∧
      Search text query k = p.map (fun x => (lines_ text).getD x.2 [])) := by
  refine ⟨sortedRelevance_pairwise_tie _ _, sortedRelevance_chain'_desc _ _, ?_, ?_⟩
  · intro x hx
    rw [mem_sortedRelevance] at hx
    simp only [lines_relevance, List.mem_map] at hx
    obtain ⟨i, _, hxi⟩ := hx
    rw [← hxi]
  · unfold Search
    split
    · exact ⟨[], sortedRelevance text (GetUniqueWordsFromStringView query), rfl, rfl⟩
    · obtain ⟨p, r, hpr, hmap⟩ :=
        takeResults_eq_prefix_map k (sortedRelevance text (GetUniqueWordsFromStringView query))
      refine ⟨p, r, hpr, ?_⟩
      rw [hmap, List.map_map]
      rfl

/-! ### Block-structured texts: tokenization and vocabulary lemmas -/

theorem splitWordsAux_single (ch : Char) (hch : isAlpha ch = true) (t : List Char) :
    splitWordsAux (ch :: ' ' :: t) [] = [ch] :: splitWordsAux t [] := by
  simp [splitWordsAux, hch, show isAlpha ' ' = false from rfl]

theorem splitWordsAux_blocks (ch : Char) (hch : isAlpha ch = true) (k : Nat)
    (rest : List Char) :
    splitWordsAux ((List.replicate k ([ch, ' '])).flatten ++ rest) [] =
      List.replicate k [ch] ++ splitWordsAux rest [] := by
  induction k with
  | zero => simp
  | succ k ih =>
    rw [List.replicate_succ, List.flatten_cons, List.append_assoc]
    simp only [List.cons_append, List.nil_append]
    rw [splitWordsAux_single ch hch, ih, List.replicate_succ, List.cons_append]

theorem compLt_congr_right {u w : List Char} (x : List Char) (h : lkey u = lkey w) :
    compLt x u = compLt x w := by
  induction x generalizing u w with
  | nil =>
    cases u with
    | nil =>
      cases w with
      | nil => rfl
      | cons b bs => simp [lkey] at h
    | cons a as =>
      cases w with
      | nil => simp [lkey] at h
      | cons b bs => rfl
  | cons c cs ih =>
    cases u with
    | nil =>
      cases w with
      | nil => rfl
      | cons b bs => simp [lkey] at h
    | cons a as =>
      cases w with
      | nil => simp [lkey] at h
      | cons b bs =>
        simp only [lkey, List.map_cons, List.cons.injEq] at h
        obtain ⟨h1, h2⟩ := h
        simp only [compLt, h1]
        split
        · rfl
        · split
          · rfl
          · exact ih (h := h2)

theorem setInsert_absorb {w : List Char} {l : List (List Char)} (hs : sortedKeys l)
    (he : ∃ u ∈ l, compEquiv w u = true) : setInsert w l = l := by
  induction l with
  | nil =>
    obtain ⟨u, hu, _⟩ := he
    cases hu
  | cons x xs ih =>
    rcases List.pairwise_cons.mp hs with ⟨hx, hxs⟩
    obtain ⟨u, hu, hequiv⟩ := he
    unfold setInsert
    by_cases h1 : compLt w x = true
    · exfalso
      rcases List.mem_cons.mp hu with rfl | hu2
      · rw [(compLt_of_equiv_false w u hequiv).1] at h1
        cases h1
      · have h2 := compLt_trans h1 (hx u hu2)
        rw [(compLt_of_equiv_false w u hequiv).1] at h2
        cases h2
    · rw [if_neg h1]
      by_cases h2 : compLt x w = true
      · rw [if_pos h2]
        have hu2 : u ∈ xs := by
          rcases List.mem_cons.mp hu with rfl | h
          · rw [(compLt_of_equiv_false w u hequiv).2] at h2
            cases h2
          · exact h
        rw [ih hxs ⟨u, hu2, hequiv⟩]
      · rw [if_neg h2]

theorem foldl_setInsert_replicate (k : Nat) (w : List Char) :
    ∀ acc : List (List Char), sortedKeys acc → k ≠ 0 →
      (List.replicate k w).foldl (fun a x => setInsert x a) acc = setInsert w acc := by
  induction k with
  | zero =>
    intro acc _ hk
    exact absurd rfl hk
  | succ k ih =>
    intro acc hs _
    rw [List.replicate_succ, List.foldl_cons]
    cases k with
    | zero => rfl
    | succ k =>
      rw [ih (setInsert w acc) (sortedKeys_setInsert hs) (Nat.succ_ne_zero k)]
      exact setInsert_absorb (sortedKeys_setInsert hs) (setInsert_covers w acc)

/-! ### The near-tie chain text for claim C6 -/

/-- Token count of each of the three chained lines: within the window where
`ln(4/3)/bTok < 1e-9 ≤ 2*ln(4/3)/bTok`. -/
def bTok : Nat := 400000000

/-- A line of `c` tokens `a` followed by `bTok - c` tokens `b`, each token
trailed by one space. -/
def lineA (c : Nat) : List Char :=
  (List.replicate c ([ 'a', ' '])).flatten ++ (List.replicate (bTok - c) ([ 'b', ' '])).flatten

/-- The single-character query word of the chain example. -/
def exWordA : List Char := [ 'a']

/-- The other vocabulary word of the chain example. -/
def exWordB : List Char := [ 'b']

/-- The chain text: three near-tied `a`-bearing lines whose scores step by
`ln(4/3)/bTok` (just under the 1e-9 tolerance), and one `a`-free line that
keeps the document frequency below the line count. -/
def exText6 : List Char :=
  lineA 1 ++ '\n' :: (lineA 2 ++ '\n' :: (lineA 3 ++ '\n' :: [ 'b']))

theorem lineA_ne_nil (c : Nat) (hc : 1 ≤ c) : lineA c ≠ [] := by
  unfold lineA
  cases c with
  | zero => omega
  | succ c =>
    rw [List.replicate_succ, List.flatten_cons]
    simp

theorem no_newline_lineA (c : Nat) : ∀ ch ∈ lineA c, ¬ ch = '\n' := by
  intro ch hch
  unfold lineA at hch
  rcases List.mem_append.mp hch with h | h
  · obtain ⟨l, hl, hin⟩ := List.mem_flatten.mp h
    rw [List.eq_of_mem_replicate hl] at hin
    simp only [List.mem_cons, List.mem_singleton] at hin
    rcases hin with rfl | rfl | h
    · decide
    · decide
    · cases h
  · obtain ⟨l, hl, hin⟩ := List.mem_flatten.mp h
    rw [List.eq_of_mem_replicate hl] at hin
    simp only [List.mem_cons, List.mem_singleton] at hin
    rcases hin with rfl | rfl | h
    · decide
    · decide
    · cases h

theorem getWords_lineA (c : Nat) :
    GetWordsFromStringView (lineA c) =
      List.replicate c exWordA ++ List.replicate (bTok - c) exWordB := by
  unfold GetWordsFromStringView lineA
  have h2 : splitWordsAux ((List.replicate (bTok - c) ([ 'b', ' '])).flatten) [] =
      List.replicate (bTok - c) exWordB := by
    have h := splitWordsAux_blocks 'b' (by decide) (bTok - c) []
    rw [List.append_nil, show splitWordsAux ([] : List Char) [] = ([] : List (List Char))
      from rfl, List.append_nil] at h
    exact h
  rw [splitWordsAux_blocks 'a' (by decide) c _, h2]
  rfl

theorem linesAux_cons_of_ne (c : Char) (cs acc : List Char) (hc : ¬ c = '\n') :
    linesAux (c :: cs) acc = linesAux cs (c :: acc) := by
  simp [linesAux, hc]

theorem linesAux_append_newline (a b acc : List Char) (ha : ∀ ch ∈ a, ¬ ch = '\n') :
    linesAux (a ++ '\n' :: b) acc =
      if acc.reverse ++ a = [] then linesAux b []
      else (acc.reverse ++ a) :: linesAux b [] := by
  induction a generalizing acc with
  | nil =>
    by_cases h : acc = []
    · simp [linesAux, h]
    · simp [linesAux, h]
  | cons c cs ih =>
    have hc : ¬ c = '\n' := ha c (List.mem_cons.mpr (Or.inl rfl))
    rw [List.cons_append, linesAux_cons_of_ne c _ _ hc,
      ih (c :: acc) (fun d hd => ha d (List.mem_cons.mpr (Or.inr hd)))]
    have h1 : (c :: acc).reverse ++ cs ≠ [] := by simp
    have h2 : acc.reverse ++ c :: cs ≠ [] := by simp
    rw [if_neg h1, if_neg h2]
    simp [List.reverse_cons, List.append_assoc]

theorem lines_exText6 : lines_ exText6 = [lineA 1, lineA 2, lineA 3, [ 'b']] := by
  have hne : exText6 ≠ [] := by
    unfold exText6
    intro h
    rcases List.append_eq_nil.mp h with ⟨h1, _⟩
    exact lineA_ne_nil 1 (by norm_num) h1
  have hli : ∀ c : Nat, 1 ≤ c → ¬ (List.reverse ([] : List Char) ++ lineA c = []) := by
    intro c hc
    rw [List.reverse_nil, List.nil_append]
    exact lineA_ne_nil c hc
  unfold lines_ GetLinesFromText
  rw [if_neg hne]
  unfold exText6
  rw [linesAux_append_newline (lineA 1) _ [] (no_newline_lineA 1)]
  rw [if_neg (hli 1 (by norm_num))]
  rw [linesAux_append_newline (lineA 2) _ [] (no_newline_lineA 2)]
  rw [if_neg (hli 2 (by norm_num))]
  rw [linesAux_append_newline (lineA 3) _ [] (no_newline_lineA 3)]
  rw [if_neg (hli 3 (by norm_num))]
  rw [show linesAux ([ 'b']) [] = [[ 'b']] from by decide]
  rw [List.reverse_nil, List.nil_append, List.nil_append, List.nil_append]

theorem wordsInLines_exText6_zero :
    (wordsInLines exText6).getD 0 [] =
      List.replicate 1 exWordA ++ List.replicate (bTok - 1) exWordB := by
  unfold wordsInLines
  rw [lines_exText6]
  show GetWordsFromStringView (lineA 1) = _
  exact getWords_lineA 1

theorem wordsInLines_exText6_one :
    (wordsInLines exText6).getD 1 [] =
      List.replicate 2 exWordA ++ List.replicate (bTok - 2) exWordB := by
  unfold wordsInLines
  rw [lines_exText6]
  show GetWordsFromStringView (lineA 2) = _
  exact getWords_lineA 2

theorem wordsInLines_exText6_two :
    (wordsInLines exText6).getD 2 [] =
      List.replicate 3 exWordA ++ List.replicate (bTok - 3) exWordB := by
  unfold wordsInLines
  rw [lines_exText6]
  show GetWordsFromStringView (lineA 3) = _
  exact getWords_lineA 3

theorem wordsInLines_exText6_three :
    (wordsInLines exText6).getD 3 [] = [exWordB] := by
  unfold wordsInLines
  rw [lines_exText6]
  show GetWordsFromStringView ([ 'b']) = _
  decide

theorem isEmpty_false_of_ne_nil {α : Type} {l : List α} (h : l ≠ []) :
    l.isEmpty = false := by
  cases l with
  | nil => exact absurd rfl h
  | cons x xs => rfl

theorem repApp_ne_nil (c : Nat) (hc : 1 ≤ c) :
    List.replicate c exWordA ++ List.replicate (bTok - c) exWordB ≠ [] := by
  intro h
  rcases List.append_eq_nil.mp h with ⟨h1, _⟩
  have h2 := congrArg List.length h1
  rw [List.length_replicate] at h2
  simp at h2
  omega

theorem not_ignored_exText6 : nonIgnoredPositions exText6 = [0, 1, 2, 3] := by
  have h0 : ignoredB exText6 0 = false := by
    unfold ignoredB
    rw [wordsInLines_exText6_zero]
    exact isEmpty_false_of_ne_nil (repApp_ne_nil 1 (by norm_num))
  have h1 : ignoredB exText6 1 = false := by
    unfold ignoredB
    rw [wordsInLines_exText6_one]
    exact isEmpty_false_of_ne_nil (repApp_ne_nil 2 (by norm_num))
  have h2 : ignoredB exText6 2 = false := by
    unfold ignoredB
    rw [wordsInLines_exText6_two]
    exact isEmpty_false_of_ne_nil (repApp_ne_nil 3 (by norm_num))
  have h3 : ignoredB exText6 3 = false := by
    unfold ignoredB
    rw [wordsInLines_exText6_three]
    rfl
  unfold nonIgnoredPositions
  rw [show (lines_ exText6).length = 4 from by rw [lines_exText6]; rfl]
  rw [show List.range 4 = [0, 1, 2, 3] from by decide]
  simp [List.filter_cons, h0, h1, h2, h3]

theorem sortedKeys_pairAB : sortedKeys [exWordA, exWordB] := by
  unfold sortedKeys
  simp [exWordA, exWordB, compLt, lc]
  decide

theorem countP_four {α : Type} (p : α → Bool) (b1 b2 b3 b4 : α)
    (h1 : p b1 = true) (h2 : p b2 = true) (h3 : p b3 = true) (h4 : p b4 = false) :
    List.countP p [b1, b2, b3, b4] = 3 := by
  rw [List.countP_cons, List.countP_cons, List.countP_cons, List.countP_cons,
    List.countP_nil, h1, h2, h3, h4]
  decide

theorem text_words_exText6 : text_words_ exText6 = [exWordA, exWordB] := by
  unfold text_words_ GetUniqueWordsFromStringView
  have hflat : GetWordsFromStringView exText6 =
      (List.replicate 1 exWordA ++ List.replicate (bTok - 1) exWordB) ++
      ((List.replicate 2 exWordA ++ List.replicate (bTok - 2) exWordB) ++
      ((List.replicate 3 exWordA ++ List.replicate (bTok - 3) exWordB) ++
      ([exWordB] ++ []))) := by
    rw [← words_of_lines_flatten exText6]
    rw [show GetLinesFromText exText6 = [lineA 1, lineA 2, lineA 3, [ 'b']] from
      lines_exText6]
    simp only [List.map_cons, List.map_nil, List.flatten_cons, List.flatten_nil]
    rw [getWords_lineA 1, getWords_lineA 2, getWords_lineA 3]
    rw [show GetWordsFromStringView ([ 'b']) = [exWordB] from by decide]
  rw [hflat]
  simp only [List.foldl_append]
  rw [foldl_setInsert_replicate 1 exWordA [] (by simp [sortedKeys]) (by norm_num)]
  rw [show setInsert exWordA [] = [exWordA] from by decide]
  rw [foldl_setInsert_replicate (bTok - 1) exWordB [exWordA] (by simp [sortedKeys])
    (by unfold bTok; omega)]
  rw [show setInsert exWordB [exWordA] = [exWordA, exWordB] from by decide]
  rw [foldl_setInsert_replicate 2 exWordA [exWordA, exWordB] sortedKeys_pairAB (by norm_num)]
  rw [show setInsert exWordA [exWordA, exWordB] = [exWordA, exWordB] from by decide]
  rw [foldl_setInsert_replicate (bTok - 2) exWordB [exWordA, exWordB] sortedKeys_pairAB
    (by unfold bTok; omega)]
  rw [show setInsert exWordB [exWordA, exWordB] = [exWordA, exWordB] from by decide]
  rw [foldl_setInsert_replicate 3 exWordA [exWordA, exWordB] sortedKeys_pairAB (by norm_num)]
  rw [show setInsert exWordA [exWordA, exWordB] = [exWordA, exWordB] from by decide]
  rw [foldl_setInsert_replicate (bTok - 3) exWordB [exWordA, exWordB] sortedKeys_pairAB
    (by unfold bTok; omega)]
  rw [show setInsert exWordB [exWordA, exWordB] = [exWordA, exWordB] from by decide]
  rw [List.foldl_cons, List.foldl_nil, List.foldl_nil]
  rw [show setInsert exWordB [exWordA, exWordB] = [exWordA, exWordB] from by decide]

theorem countA_blocks (c : Nat) :
    (List.replicate c exWordA ++ List.replicate (bTok - c) exWordB).countP
      (fun t => compEquiv t exWordA) = c := by
  rw [List.countP_append, List.countP_replicate, List.countP_replicate,
    if_pos (by decide), if_neg (by decide)]
  omega

theorem tf_blocks (c : Nat) (hc : c ≤ bTok) :
    GetTFOfWordsInLine (List.replicate c exWordA ++ List.replicate (bTok - c) exWordB)
      exWordA = (c : ℚ) / (bTok : ℚ) := by
  unfold GetTFOfWordsInLine
  rw [countA_blocks, List.length_append, List.length_replicate, List.length_replicate,
    show c + (bTok - c) = bTok from by omega]

theorem tf_lineB6 : GetTFOfWordsInLine [exWordB] exWordA = 0 := by
  unfold GetTFOfWordsInLine
  rw [show ([exWordB].countP (fun t => compEquiv t exWordA)) = 0 from by decide]
  norm_num

theorem tf_col_exText6 : word_tf_in_line exText6 exWordA =
    [(1 : ℚ) / (bTok : ℚ), (2 : ℚ) / (bTok : ℚ), (3 : ℚ) / (bTok : ℚ), 0] := by
  unfold word_tf_in_line
  rw [not_ignored_exText6]
  simp only [List.map_cons, List.map_nil]
  rw [wordsInLines_exText6_zero, wordsInLines_exText6_one, wordsInLines_exText6_two,
    wordsInLines_exText6_three]
  rw [tf_blocks 1 (by unfold bTok; omega), tf_blocks 2 (by unfold bTok; omega),
    tf_blocks 3 (by unfold bTok; omega), tf_lineB6]
  norm_num

theorem df_exText6 : word_idf_count exText6 exWordA = 3 := by
  rw [word_idf_count_eq, not_ignored_exText6]
  simp only [List.map_cons, List.map_nil]
  rw [wordsInLines_exText6_zero, wordsInLines_exText6_one, wordsInLines_exText6_two,
    wordsInLines_exText6_three]
  refine countP_four _ _ _ _ _ ?_ ?_ ?_ ?_
  · exact decide_eq_true (by rw [countA_blocks]; norm_num)
  · exact decide_eq_true (by rw [countA_blocks]; norm_num)
  · exact decide_eq_true (by rw [countA_blocks]; norm_num)
  · exact decide_eq_false (fun h => h (by decide))

theorem idf_exText6 : word_idf exText6 exWordA = Real.log ((4 : ℝ) / 3) := by
  unfold word_idf
  rw [df_exText6, if_pos (by norm_num)]
  rw [show (lines_ exText6).length = 4 from by rw [lines_exText6]; rfl]
  norm_num

theorem bTok_cast : (bTok : ℝ) = 400000000 := by
  unfold bTok
  norm_num

theorem log_four_thirds_ub : Real.log ((4 : ℝ) / 3) ≤ 1 / 3 := by
  have h := Real.log_le_sub_one_of_pos (x := (4 : ℝ) / 3) (by norm_num)
  linarith

theorem log_four_thirds_lb : (1 : ℝ) / 4 ≤ Real.log ((4 : ℝ) / 3) := by
  have h := Real.log_le_sub_one_of_pos (x := (3 : ℝ) / 4) (by norm_num)
  have h2 : Real.log ((4 : ℝ) / 3) = -Real.log ((3 : ℝ) / 4) := by
    rw [← Real.log_inv]
    norm_num
  linarith

theorem log_four_thirds_pos : 0 < Real.log ((4 : ℝ) / 3) :=
  Real.log_pos (by norm_num)

theorem rel_exText6 : words_relevance_in_lines_ exText6 exWordA =
    [(1 : ℝ) / 400000000 * Real.log ((4 : ℝ) / 3),
     (2 : ℝ) / 400000000 * Real.log ((4 : ℝ) / 3),
     (3 : ℝ) / 400000000 * Real.log ((4 : ℝ) / 3), 0] := by
  unfold words_relevance_in_lines_
  rw [not_ignored_exText6]
  simp only [List.map_cons, List.map_nil]
  rw [show (word_tf_in_line exText6 exWordA).getD 0 0 = (1 : ℚ) / (bTok : ℚ) from by
      rw [tf_col_exText6]; rfl,
    show (word_tf_in_line exText6 exWordA).getD 1 0 = (2 : ℚ) / (bTok : ℚ) from by
      rw [tf_col_exText6]; rfl,
    show (word_tf_in_line exText6 exWordA).getD 2 0 = (3 : ℚ) / (bTok : ℚ) from by
      rw [tf_col_exText6]; rfl,
    show (word_tf_in_line exText6 exWordA).getD 3 0 = 0 from by rw [tf_col_exText6]; rfl,
    idf_exText6]
  push_cast
  rw [bTok_cast]
  norm_num

theorem mem_text_words_exText6 : exWordA ∈ text_words_ exText6 := by
  rw [text_words_exText6]
  decide

theorem score_exText6_zero : lineScore exText6 [exWordA] 0 =
    (1 : ℝ) / 400000000 * Real.log ((4 : ℝ) / 3) := by
  unfold lineScore
  rw [List.map_cons, List.map_nil, if_pos mem_text_words_exText6]
  rw [show (words_relevance_in_lines_ exText6 exWordA).getD 0 0 =
    (1 : ℝ) / 400000000 * Real.log ((4 : ℝ) / 3) from by rw [rel_exText6]; rfl]
  simp

theorem score_exText6_one : lineScore exText6 [exWordA] 1 =
    (2 : ℝ) / 400000000 * Real.log ((4 : ℝ) / 3) := by
  unfold lineScore
  rw [List.map_cons, List.map_nil, if_pos mem_text_words_exText6]
  rw [show (words_relevance_in_lines_ exText6 exWordA).getD 1 0 =
    (2 : ℝ) / 400000000 * Real.log ((4 : ℝ) / 3) from by rw [rel_exText6]; rfl]
  simp

theorem score_exText6_two : lineScore exText6 [exWordA] 2 =
    (3 : ℝ) / 400000000 * Real.log ((4 : ℝ) / 3) := by
  unfold lineScore
  rw [List.map_cons, List.map_nil, if_pos mem_text_words_exText6]
  rw [show (words_relevance_in_lines_ exText6 exWordA).getD 2 0 =
    (3 : ℝ) / 400000000 * Real.log ((4 : ℝ) / 3) from by rw [rel_exText6]; rfl]
  simp

theorem score_exText6_three : lineScore exText6 [exWordA] 3 = 0 := by
  unfold lineScore
  rw [List.map_cons, List.map_nil, if_pos mem_text_words_exText6]
  rw [show (words_relevance_in_lines_ exText6 exWordA).getD 3 0 = (0 : ℝ) from by
    rw [rel_exText6]; rfl]
  simp

theorem lr_exText6 : lines_relevance exText6 [exWordA] =
    [((1 : ℝ) / 400000000 * Real.log ((4 : ℝ) / 3), 0),
     ((2 : ℝ) / 400000000 * Real.log ((4 : ℝ) / 3), 1),
     ((3 : ℝ) / 400000000 * Real.log ((4 : ℝ) / 3), 2), ((0 : ℝ), 3)] := by
  simp [lines_relevance, not_ignored_exText6, score_exText6_zero, score_exText6_one,
    score_exText6_two, score_exText6_three]

theorem insertionSort_quad (a b c d : ℝ × Nat) (h1 : cmpRelevance c d)
    (h2 : cmpRelevance b c) (h3 : cmpRelevance a b) :
    List.insertionSort cmpRelevance [a, b, c, d] = [a, b, c, d] := by
  show List.orderedInsert cmpRelevance a (List.orderedInsert cmpRelevance b
    (List.orderedInsert cmpRelevance c (List.orderedInsert cmpRelevance d []))) = _
  rw [List.orderedInsert_nil, orderedInsert_cons_pos _ _ _ h1,
    orderedInsert_cons_pos _ _ _ h2, orderedInsert_cons_pos _ _ _ h3]

/-! ### Claim C6 (counterexample): a near-tie chain defeats global descending order -/

/-- C6 (counterexample): against the index built from `exText6`, the query
`"a"` with `top_k = 3` returns the three chained lines in ascending original
position `[lineA 1, lineA 2, lineA 3]`. The scores of the first and third
returned lines differ by at least the 1e-9 tolerance with the *lower* score
first — the claim's "strictly descending score order for scores at least 1e-9
apart" is violated — because each adjacent pair of the chain ties within the
tolerance and is ordered by position instead. -/
theorem tolerance_chain_counterexample :
    Search exText6 exWordA 3 = [lineA 1, lineA 2, lineA 3] ∧
    ERROR ≤ lineScore exText6 [exWordA] 2 - lineScore exText6 [exWordA] 0 ∧
    lineScore exText6 [exWordA] 0 < lineScore exText6 [exWordA] 2 ∧
    |lineScore exText6 [exWordA] 0 - lineScore exText6 [exWordA] 1| < ERROR ∧
    |lineScore exText6 [exWordA] 1 - lineScore exText6 [exWordA] 2| < ERROR := by
  have hub := log_four_thirds_ub
  have hlb := log_four_thirds_lb
  have hLpos := log_four_thirds_pos
  have hq : GetUniqueWordsFromStringView exWordA = [exWordA] := by decide
  have hcond : ¬ ((3 : Nat) = 0 ∨ lines_ exText6 = []) := by
    simp only [not_or]
    refine ⟨by norm_num, ?_⟩
    rw [lines_exText6]
    exact List.cons_ne_nil _ _
  have hc61 : cmpRelevance ((2 : ℝ) / 400000000 * Real.log ((4 : ℝ) / 3), 1)
      ((1 : ℝ) / 400000000 * Real.log ((4 : ℝ) / 3), 0) := by
    refine (cmpRelevance_near_iff ?_).mpr (by norm_num)
    rw [show (2 : ℝ) / 400000000 * Real.log ((4 : ℝ) / 3) -
        (1 : ℝ) / 400000000 * Real.log ((4 : ℝ) / 3) =
      (1 : ℝ) / 400000000 * Real.log ((4 : ℝ) / 3) from by ring]
    rw [abs_of_pos (by nlinarith)]
    unfold ERROR
    nlinarith
  have hc62 : cmpRelevance ((3 : ℝ) / 400000000 * Real.log ((4 : ℝ) / 3), 2)
      ((2 : ℝ) / 400000000 * Real.log ((4 : ℝ) / 3), 1) := by
    refine (cmpRelevance_near_iff ?_).mpr (by norm_num)
    rw [show (3 : ℝ) / 400000000 * Real.log ((4 : ℝ) / 3) -
        (2 : ℝ) / 400000000 * Real.log ((4 : ℝ) / 3) =
      (1 : ℝ) / 400000000 * Real.log ((4 : ℝ) / 3) from by ring]
    rw [abs_of_pos (by nlinarith)]
    unfold ERROR
    nlinarith
  have hc63 : cmpRelevance ((0 : ℝ), 3)
      ((3 : ℝ) / 400000000 * Real.log ((4 : ℝ) / 3), 2) := by
    refine (cmpRelevance_far_iff ?_).mpr (by nlinarith)
    rw [show (0 : ℝ) - (3 : ℝ) / 400000000 * Real.log ((4 : ℝ) / 3) =
      -((3 : ℝ) / 400000000 * Real.log ((4 : ℝ) / 3)) from by ring]
    rw [abs_neg, abs_of_pos (by nlinarith)]
    unfold ERROR
    nlinarith
  have hsort6 : sortedRelevance exText6 [exWordA] =
      [((1 : ℝ) / 400000000 * Real.log ((4 : ℝ) / 3), 0),
       ((2 : ℝ) / 400000000 * Real.log ((4 : ℝ) / 3), 1),
       ((3 : ℝ) / 400000000 * Real.log ((4 : ℝ) / 3), 2), ((0 : ℝ), 3)] := by
    unfold sortedRelevance
    rw [lr_exText6]
    rw [show ([((1 : ℝ) / 400000000 * Real.log ((4 : ℝ) / 3), 0),
        ((2 : ℝ) / 400000000 * Real.log ((4 : ℝ) / 3), 1),
        ((3 : ℝ) / 400000000 * Real.log ((4 : ℝ) / 3), 2), ((0 : ℝ), 3)]).reverse =
      [((0 : ℝ), 3), ((3 : ℝ) / 400000000 * Real.log ((4 : ℝ) / 3), 2),
        ((2 : ℝ) / 400000000 * Real.log ((4 : ℝ) / 3), 1),
        ((1 : ℝ) / 400000000 * Real.log ((4 : ℝ) / 3), 0)] from rfl]
    rw [insertionSort_quad _ _ _ _ hc61 hc62 hc63]
    rfl
  have hres : Search exText6 exWordA 3 = [lineA 1, lineA 2, lineA 3] := by
    unfold Search
    rw [if_neg hcond, hq, hsort6]
    rw [show takeResults 3
        [((1 : ℝ) / 400000000 * Real.log ((4 : ℝ) / 3), 0),
         ((2 : ℝ) / 400000000 * Real.log ((4 : ℝ) / 3), 1),
         ((3 : ℝ) / 400000000 * Real.log ((4 : ℝ) / 3), 2), ((0 : ℝ), 3)] =
      (if (1 : ℝ) / 400000000 * Real.log ((4 : ℝ) / 3) = 0 then [] else
        (0 : Nat) :: takeResults 2
          [((2 : ℝ) / 400000000 * Real.log ((4 : ℝ) / 3), 1),
           ((3 : ℝ) / 400000000 * Real.log ((4 : ℝ) / 3), 2), ((0 : ℝ), 3)]) from rfl]
    rw [if_neg (by nlinarith)]
    rw [show takeResults 2
        [((2 : ℝ) / 400000000 * Real.log ((4 : ℝ) / 3), 1),
         ((3 : ℝ) / 400000000 * Real.log ((4 : ℝ) / 3), 2), ((0 : ℝ), 3)] =
      (if (2 : ℝ) / 400000000 * Real.log ((4 : ℝ) / 3) = 0 then [] else
        (1 : Nat) :: takeResults 1
          [((3 : ℝ) / 400000000 * Real.log ((4 : ℝ) / 3), 2), ((0 : ℝ), 3)]) from rfl]
    rw [if_neg (by nlinarith)]
    rw [show takeResults 1
        [((3 : ℝ) / 400000000 * Real.log ((4 : ℝ) / 3), 2), ((0 : ℝ), 3)] =
      (if (3 : ℝ) / 400000000 * Real.log ((4 : ℝ) / 3) = 0 then [] else
        [(2 : Nat)]) from rfl]
    rw [if_neg (by nlinarith)]
    rw [List.map_cons, List.map_cons, List.map_cons, List.map_nil, lines_exText6]
    rfl
  refine ⟨hres, ?_, ?_, ?_, ?_⟩
  · rw [score_exText6_zero, score_exText6_two]
    unfold ERROR
    nlinarith
  · rw [score_exText6_zero, score_exText6_two]
    nlinarith
  · rw [score_exText6_zero, score_exText6_one]
    rw [show (1 : ℝ) / 400000000 * Real.log ((4 : ℝ) / 3) -
        (2 : ℝ) / 400000000 * Real.log ((4 : ℝ) / 3) =
      -((1 : ℝ) / 400000000 * Real.log ((4 : ℝ) / 3)) from by ring]
    rw [abs_neg, abs_of_pos (by nlinarith)]
    unfold ERROR
    nlinarith
  · rw [score_exText6_one, score_exText6_two]
    rw [show (2 : ℝ) / 400000000 * Real.log ((4 : ℝ) / 3) -
        (3 : ℝ) / 400000000 * Real.log ((4 : ℝ) / 3) =
      -((1 : ℝ) / 400000000 * Real.log ((4 : ℝ) / 3)) from by ring]
    rw [abs_neg, abs_of_pos (by nlinarith)]
    unfold ERROR
    nlinarith

/-! ### Claim C4: the spec's concrete ranking example -/

/-- The first line of `exText3`. -/
def exLineCatSat : List Char := "cat sat".toList

/-- The second line of `exText3`. -/
def exLineDogRan : List Char := "dog ran".toList

/-- The third line of `exText3`. -/
def exLineCatCatCat : List Char := "cat cat cat".toList

/-- C4: after `BuildIndex` on `"cat sat\ndog ran\ncat cat cat"`, searching
`"cat"` with `top_k = 2` returns exactly `["cat cat cat", "cat sat"]`: the
third line strictly outranks the first, and `"dog ran"` (score 0) is
excluded. -/
theorem ranking_example_cat :
    Search exText3 exWordCat 2 = [exLineCatCatCat, exLineCatSat] := by
  have hlne : ¬ lines_ exText3 = [] := by decide
  have hcond : ¬ ((2 : Nat) = 0 ∨ lines_ exText3 = []) := by simp [hlne]
  have hpos : nonIgnoredPositions exText3 = [0, 1, 2] := by decide
  have hlines : lines_ exText3 = [exLineCatSat, exLineDogRan, exLineCatCatCat] := by decide
  have hq : GetUniqueWordsFromStringView exWordCat = [exWordCat] := by decide
  have hmem : exWordCat ∈ text_words_ exText3 := by decide
  have hL3 : (1 : ℝ) / 3 ≤ Real.log ((3 : ℝ) / 2) := log_three_half_ge
  have hLpos : 0 < Real.log ((3 : ℝ) / 2) := Real.log_pos (by norm_num)
  have hdf : word_idf_count exText3 exWordCat = 2 := by
    rw [word_idf_count_eq]
    decide
  have hidf : word_idf exText3 exWordCat = Real.log ((3 : ℝ) / 2) := by
    unfold word_idf
    rw [hdf, if_pos (by norm_num)]
    rw [show (lines_ exText3).length = 3 from by decide]
    norm_num
  have htf0 : GetTFOfWordsInLine ((wordsInLines exText3).getD 0 []) exWordCat = 1 / 2 := by
    have hc : ((wordsInLines exText3).getD 0 []).countP
        (fun t => compEquiv t exWordCat) = 1 := by decide
    have hl : ((wordsInLines exText3).getD 0 []).length = 2 := by decide
    unfold GetTFOfWordsInLine
    rw [hc, hl]
    norm_num
  have htf1 : GetTFOfWordsInLine ((wordsInLines exText3).getD 1 []) exWordCat = 0 := by
    have hc : ((wordsInLines exText3).getD 1 []).countP
        (fun t => compEquiv t exWordCat) = 0 := by decide
    unfold GetTFOfWordsInLine
    rw [hc]
    norm_num
  have htf2 : GetTFOfWordsInLine ((wordsInLines exText3).getD 2 []) exWordCat = 1 := by
    have hc : ((wordsInLines exText3).getD 2 []).countP
        (fun t => compEquiv t exWordCat) = 3 := by decide
    have hl : ((wordsInLines exText3).getD 2 []).length = 3 := by decide
    unfold GetTFOfWordsInLine
    rw [hc, hl]
    norm_num
  have htfl : word_tf_in_line exText3 exWordCat = [1 / 2, 0, 1] := by
    simp only [word_tf_in_line, hpos, List.map_cons, List.map_nil]
    rw [htf0, htf1, htf2]
  have hg0 : (word_tf_in_line exText3 exWordCat).getD 0 0 = 1 / 2 := by
    rw [htfl]
    rfl
  have hg1 : (word_tf_in_line exText3 exWordCat).getD 1 0 = 0 := by
    rw [htfl]
    rfl
  have hg2 : (word_tf_in_line exText3 exWordCat).getD 2 0 = 1 := by
    rw [htfl]
    rfl
  have hrel : words_relevance_in_lines_ exText3 exWordCat =
      [(1 / 2 : ℝ) * Real.log ((3 : ℝ) / 2), 0, Real.log ((3 : ℝ) / 2)] := by
    simp only [words_relevance_in_lines_, hpos, List.map_cons, List.map_nil, hg0, hg1, hg2,
      hidf]
    norm_num
  have hs0 : lineScore exText3 [exWordCat] 0 = (1 / 2 : ℝ) * Real.log ((3 : ℝ) / 2) := by
    unfold lineScore
    rw [List.map_cons, List.map_nil, if_pos hmem]
    rw [show (words_relevance_in_lines_ exText3 exWordCat).getD 0 0 =
      (1 / 2 : ℝ) * Real.log ((3 : ℝ) / 2) from by rw [hrel]; rfl]
    simp
  have hs1 : lineScore exText3 [exWordCat] 1 = 0 := by
    unfold lineScore
    rw [List.map_cons, List.map_nil, if_pos hmem]
    rw [show (words_relevance_in_lines_ exText3 exWordCat).getD 1 0 = (0 : ℝ) from by
      rw [hrel]; rfl]
    simp
  have hs2 : lineScore exText3 [exWordCat] 2 = Real.log ((3 : ℝ) / 2) := by
    unfold lineScore
    rw [List.map_cons, List.map_nil, if_pos hmem]
    rw [show (words_relevance_in_lines_ exText3 exWordCat).getD 2 0 =
      Real.log ((3 : ℝ) / 2) from by rw [hrel]; rfl]
    simp
  have hlr : lines_relevance exText3 [exWordCat] =
      [((1 / 2 : ℝ) * Real.log ((3 : ℝ) / 2), 0), ((0 : ℝ), 1),
        (Real.log ((3 : ℝ) / 2), 2)] := by
    simp [lines_relevance, hpos, hs0, hs1, hs2]
  have hc1 : cmpRelevance ((0 : ℝ), 1) ((1 / 2 : ℝ) * Real.log ((3 : ℝ) / 2), 0) := by
    refine (cmpRelevance_far_iff ?_).mpr ?_
    · unfold ERROR
      rw [show |(0 : ℝ) - (1 / 2 : ℝ) * Real.log ((3 : ℝ) / 2)| =
          (1 / 2 : ℝ) * Real.log ((3 : ℝ) / 2) by
        rw [zero_sub, abs_neg, abs_of_pos (by nlinarith)]]
      nlinarith
    · show (0 : ℝ) < (1 / 2 : ℝ) * Real.log ((3 : ℝ) / 2)
      nlinarith
  have hc2 : ¬ cmpRelevance (Real.log ((3 : ℝ) / 2), 2) ((0 : ℝ), 1) := by
    rw [cmpRelevance_far_iff ?_]
    · show ¬ Real.log ((3 : ℝ) / 2) < 0
      linarith
    · unfold ERROR
      rw [show |Real.log ((3 : ℝ) / 2) - (0 : ℝ)| = Real.log ((3 : ℝ) / 2) by
        rw [sub_zero, abs_of_pos hLpos]]
      linarith
  have hc3 : ¬ cmpRelevance (Real.log ((3 : ℝ) / 2), 2)
      ((1 / 2 : ℝ) * Real.log ((3 : ℝ) / 2), 0) := by
    rw [cmpRelevance_far_iff ?_]
    · show ¬ Real.log ((3 : ℝ) / 2) < (1 / 2 : ℝ) * Real.log ((3 : ℝ) / 2)
      nlinarith
    · unfold ERROR
      rw [show |Real.log ((3 : ℝ) / 2) - (1 / 2 : ℝ) * Real.log ((3 : ℝ) / 2)| =
          (1 / 2 : ℝ) * Real.log ((3 : ℝ) / 2) by
        rw [show Real.log ((3 : ℝ) / 2) - (1 / 2 : ℝ) * Real.log ((3 : ℝ) / 2) =
          (1 / 2 : ℝ) * Real.log ((3 : ℝ) / 2) by ring]
        rw [abs_of_pos (by nlinarith)]]
      nlinarith
  have hsort : sortedRelevance exText3 [exWordCat] =
      [(Real.log ((3 : ℝ) / 2), 2), ((1 / 2 : ℝ) * Real.log ((3 : ℝ) / 2), 0),
        ((0 : ℝ), 1)] := by
    unfold sortedRelevance
    rw [hlr]
    rw [show ([((1 / 2 : ℝ) * Real.log ((3 : ℝ) / 2), 0), ((0 : ℝ), 1),
        (Real.log ((3 : ℝ) / 2), 2)]).reverse =
      [(Real.log ((3 : ℝ) / 2), 2), ((0 : ℝ), 1),
        ((1 / 2 : ℝ) * Real.log ((3 : ℝ) / 2), 0)] from rfl]
    rw [insertionSort_triple _ _ _ hc1 hc2 hc3]
    rfl
  unfold Search
  rw [if_neg hcond, hq, hsort]
  rw [show takeResults 2 [(Real.log ((3 : ℝ) / 2), 2),
      ((1 / 2 : ℝ) * Real.log ((3 : ℝ) / 2), 0), ((0 : ℝ), 1)] =
    (if Real.log ((3 : ℝ) / 2) = 0 then [] else
      (2 : Nat) :: takeResults 1 [((1 / 2 : ℝ) * Real.log ((3 : ℝ) / 2), 0),
        ((0 : ℝ), 1)]) from rfl]
  rw [if_neg (by linarith)]
  rw [show takeResults 1 [((1 / 2 : ℝ) * Real.log ((3 : ℝ) / 2), 0), ((0 : ℝ), 1)] =
    (if (1 / 2 : ℝ) * Real.log ((3 : ℝ) / 2) = 0 then [] else [(0 : Nat)]) from rfl]
  rw [if_neg (by nlinarith)]
  rw [List.map_cons, List.map_cons, List.map_nil, hlines]
  rfl

end SearchEngine
